import Mathlib

/-!
Verification of the repository-discovery and commit-aggregation engine of
git-insider (src/models/GitService.js and the commits route handler).

The JavaScript source is shallowly embedded: every function below mirrors a
function of the source, with JavaScript runtime behaviour made explicit:

* Calendar instants (`moment` objects, `Date` objects, ISO strings and unix
  timestamps) are modelled by one structured type `DateT` carrying year,
  month, day and millisecond-of-day; JavaScript `<`, `>` comparisons between
  instants become the lexicographic tests `DateT.dlt` / `DateT.dle`.
* `Array.prototype.sort`, which is stable with an explicit comparator, is
  modelled by a stable insertion sort `insSort` over the same comparator.
* JavaScript truthiness of nullable strings (`null`, `undefined`, `""` are
  falsy) is modelled by `jsStrTruthy` / `jsCharsTruthy`.
* The external version-control tool (git, invoked through simple-git) is the
  environment: each repository path maps to its raw log, and the tool's
  documented query surface (filter by date range, author pattern, merge
  exclusion and output cap, spec section 6) is `gitLogRange` / `gitLogQuery`
  over that raw log.  Regular-expression matching and `git name-rev` results
  are likewise environment functions.
* The two process-wide caches are explicit association-list states threaded
  through the functions that mutate them.

Strings that the code computes on character by character (git ref
decorations) are modelled as `List Char` so that every operation is a
structural recursion the kernel can evaluate.
-/

namespace GitInsider

/-! ## Dates and JavaScript comparison semantics -/

/-- A calendar instant: year, month (1..12), day of month, millisecond of
day.  Models every date representation the source passes around (moment
objects, `Date` objects, ISO strings, unix timestamps). -/
structure DateT where
  y : Nat
  mo : Nat
  d : Nat
  ms : Nat
deriving DecidableEq, Repr

/-- JavaScript `a <= b` on two instants: lexicographic on
(year, month, day, millisecond). -/
def DateT.dle (a b : DateT) : Bool :=
  a.y < b.y || (a.y == b.y && (a.mo < b.mo || (a.mo == b.mo &&
    (a.d < b.d || (a.d == b.d && a.ms ≤ b.ms)))))

/-- JavaScript `a < b` on two instants. -/
def DateT.dlt (a b : DateT) : Bool :=
  a.y < b.y || (a.y == b.y && (a.mo < b.mo || (a.mo == b.mo &&
    (a.d < b.d || (a.d == b.d && a.ms < b.ms)))))

/-- Last millisecond of a day, as in moment's `endOf('day')` (23:59:59.999). -/
def dayEndMs : Nat := 86399999

/-- A calendar day (the `YYYY-MM-DD` strings the API accepts). -/
structure DayDate where
  y : Nat
  mo : Nat
  d : Nat
deriving DecidableEq, Repr

/-- moment(d).startOf('day'). -/
def DayDate.atStart (d : DayDate) : DateT := ⟨d.y, d.mo, d.d, 0⟩

/-- moment(d).endOf('day'). -/
def DayDate.atEnd (d : DayDate) : DateT := ⟨d.y, d.mo, d.d, dayEndMs⟩

/-- A `YYYY-MM` month-cache key. -/
structure MonthKey where
  y : Nat
  mo : Nat
deriving DecidableEq, Repr

/-- moment's leap-year rule (Gregorian). -/
def isLeapYear (y : Nat) : Bool :=
  y % 4 == 0 && (y % 100 != 0 || y % 400 == 0)

/-- Number of days in a month, as moment's `endOf('month')` computes it. -/
def lastDayOfMonth (y mo : Nat) : Nat :=
  if mo == 2 then (if isLeapYear y then 29 else 28)
  else if mo == 4 || mo == 6 || mo == 9 || mo == 11 then 30
  else 31

/-- First instant of the month: `moment({year, month, day: 1}).startOf('month')`
(GitService.js:127). -/
def monthStart (k : MonthKey) : DateT := ⟨k.y, k.mo, 1, 0⟩

/-- Last instant of the month: `monthStart.clone().endOf('month')`
(GitService.js:128). -/
def monthEnd (k : MonthKey) : DateT := ⟨k.y, k.mo, lastDayOfMonth k.y k.mo, dayEndMs⟩

/-- `moment(d).format('YYYY-MM')`. -/
def monthKeyOf (d : DateT) : MonthKey := ⟨d.y, d.mo⟩

/-! ## JavaScript string and truthiness helpers -/

/-- JavaScript truthiness of a nullable string (`null`/`undefined`/`""` falsy). -/
def jsStrTruthy : Option String → Bool
  | none => false
  | some s => !(s == "")

/-- JavaScript `a || b` for a nullable string `a` and a string `b`
(e.g. `repoInfo.displayName || repoInfo.name`). -/
def jsOrStr (a : Option String) (b : String) : String :=
  match a with
  | some s => if s == "" then b else s
  | none => b

/-- JavaScript truthiness of a nullable character-list string. -/
def jsCharsTruthy : Option (List Char) → Bool
  | none => false
  | some l => !l.isEmpty

/-- Does `pat` occur as a contiguous substring of `s` (JavaScript
`s.includes(pat)`)? -/
def hasInfixStr (pat : List Char) : List Char → Bool
  | [] => pat.isEmpty
  | c :: cs => pat.isPrefixOf (c :: cs) || hasInfixStr pat cs

/-- JavaScript `s.replace(pat, repl)`: replace the first occurrence only. -/
def replaceFirst (pat repl : List Char) : List Char → List Char
  | [] => []
  | c :: cs =>
    if pat.isPrefixOf (c :: cs) then repl ++ List.drop pat.length (c :: cs)
    else c :: replaceFirst pat repl cs

/-- Fuelled worker for `jsSplit`; the fuel is the input length, so the zero
fuel case is never reached for a non-empty separator. -/
def splitOnFuel (sep : List Char) : Nat → List Char → List Char → List (List Char)
  | _, [], cur => [cur.reverse]
  | 0, rest, cur => [cur.reverse ++ rest]
  | fuel + 1, c :: cs, cur =>
    if sep.isPrefixOf (c :: cs) then
      cur.reverse :: splitOnFuel sep fuel (List.drop sep.length (c :: cs)) []
    else
      splitOnFuel sep fuel cs (c :: cur)

/-- JavaScript `s.split(sep)` for a plain (non-regex, non-empty) separator. -/
def jsSplit (s sep : List Char) : List (List Char) :=
  splitOnFuel sep s.length s []

/-- JavaScript `s.trim()`. -/
def jsTrim (l : List Char) : List Char :=
  ((l.dropWhile Char.isWhitespace).reverse.dropWhile Char.isWhitespace).reverse

/-! ## Stable sort (JavaScript `Array.prototype.sort` with a comparator) -/

/-- Insert into an already sorted list, keeping earlier-listed elements first
among ties: the stability guarantee of `Array.prototype.sort`. -/
def insSortIns (le : α → α → Bool) (x : α) : List α → List α
  | [] => [x]
  | y :: ys => if le x y then x :: y :: ys else y :: insSortIns le x ys

/-- Stable sort by the comparator `le` (`le a b` = comparator says `a` may
come before `b`). -/
def insSort (le : α → α → Bool) : List α → List α
  | [] => []
  | x :: xs => insSortIns le x (insSort le xs)

/-! ## Data model: commits, repositories, workspaces, environment -/

/-- A parsed line of `git log` output with the structured format the source
requests (`%H`, `%an`, `%ae`, `%at`, `%s`, `%D`).  `date` is the parse of the
textual date field: `none` models a field that is neither an integer epoch
nor parseable by `Date.parse` (the source skips such commits).  `isMerge`
lets the environment apply `--no-merges`. -/
structure RawCommit where
  hash : String
  author : String
  authorEmail : String
  date : Option DateT
  message : String
  refs : List Char
  isMerge : Bool
deriving DecidableEq, Repr

/-- A normalized commit as the aggregation layer produces it
(GitService.js:206-215, 730-739). -/
structure Commit where
  repository : String
  repositoryId : Option Nat
  hash : String
  author : String
  authorEmail : String
  date : DateT
  message : String
  branch : Option (List Char)
deriving DecidableEq, Repr

/-- A repository entry as returned by the Discovery Scanner
(GitService.js:1338-1347). -/
structure RepoInfo where
  name : String
  displayName : Option String
  path : String
  repositoryId : Option Nat
  hasGitlabConfig : Bool
deriving DecidableEq, Repr

/-- A workspace row (`workspaces` table). -/
structure Workspace where
  root_path : String
  name : String
deriving DecidableEq, Repr

/-- The environment: the persistent store, the filesystem scan results and
the version-control tool, all read-only for the functions verified here.

`logOf` is a repository's raw log on its checked-out branch (newest first);
`logAllOf` the raw log across all refs (`--all`).  `reTest pat s` is
JavaScript `new RegExp(pat).test(s)`; `gitAuthorMatch` is git's `--author`
filter; `nameRev` is `git name-rev --name-only --refs=refs/heads/*` with
`none` for an error or the sentinel `undefined` output.  `estimateBytes`
models `Buffer.byteLength(JSON.stringify(commits))`.  `commitMonthCacheTTL`
(seconds) and `excludeMerges` model the two environment variables read by
the source. -/
structure Env where
  workspaces : List Workspace
  reposOf : String → List RepoInfo
  logOf : String → List RawCommit
  logAllOf : String → List RawCommit
  nameRev : String → String → Option (List Char)
  reTest : String → String → Bool
  gitAuthorMatch : String → RawCommit → Bool
  estimateBytes : List Commit → Nat
  commitMonthCacheTTL : Nat
  excludeMerges : Bool

/-- Comparator of GitService.js:243 and 760: sort descending by date
(`(a, b) => new Date(b.date) - new Date(a.date)`). -/
def byDateDesc (a b : Commit) : Bool := DateT.dle b.date a.date

/-- Sort a commit list descending by date, stably. -/
def sortByDateDesc (l : List Commit) : List Commit := insSort byDateDesc l

/-! ## Branch resolution heuristic (extractBranchFromRefs, GitService.js:768-801) -/

def commaSep : List Char := (", ").toList

def slashSep : List Char := ("/").toList

def originPre : List Char := ("origin/").toList

def headMark : List Char := ("HEAD").toList

def tagMark : List Char := ("tag:").toList

def remotesMark : List Char := ("refs/remotes/").toList

/-- The remote-tracking candidates, in decoration order, before prefix
stripping: `refList.filter(ref => ref.startsWith('origin/') &&
!ref.includes('HEAD'))` (GitService.js:773-775). -/
def originCandidates (refs : List Char) : List (List Char) :=
  (jsSplit refs commaSep).filter fun r =>
    originPre.isPrefixOf r && !(hasInfixStr headMark r)

/-- The local-branch candidates: tokens with no `/`, no `HEAD`, no `tag:`
and a non-empty trim (GitService.js:782-784). -/
def localCandidates (refs : List Char) : List (List Char) :=
  (jsSplit refs commaSep).filter fun r =>
    !(hasInfixStr slashSep r) && !(hasInfixStr headMark r) &&
    !(hasInfixStr tagMark r) && !(jsTrim r).isEmpty

/-- Embedding of `extractBranchFromRefs` (GitService.js:768-801). -/
def extractBranchFromRefs (refs : List Char) : Option (List Char) :=
  if refs.isEmpty then none
  else
    match (originCandidates refs).map (replaceFirst originPre []) with
    | b :: _ => some b
    | [] =>
      match localCandidates refs with
      | b :: _ => some b
      | [] =>
        match (jsSplit refs commaSep).find? (fun r =>
            hasInfixStr slashSep r && !(hasInfixStr headMark r) &&
            !(hasInfixStr tagMark r) && !(hasInfixStr remotesMark r)) with
        | some r =>
          match (jsSplit r slashSep).getLast? with
          | some seg => some seg
          | none => none
        | none => none

/-! ## Named-repository filter (_selectNamedReposOnly, GitService.js:114-117) -/

/-- Embedding of `_selectNamedReposOnly`: keep `r` unless
`r.hasGitlabConfig && !r.displayName` (GitService.js:116). -/
def selectNamedReposOnly (repos : List RepoInfo) : List RepoInfo :=
  repos.filter fun r => !(r.hasGitlabConfig && !(jsStrTruthy r.displayName))

/-! ## External log queries (spec section 6: the version-control capability) -/

/-- The tool's date-range filtered log, as `_buildMonthCommits` invokes it
(`--since` first day of month, `--until` last day of month,
GitService.js:159-169): commits whose reported date parses are kept exactly
when the date lies in the range; commits whose reported date the model
cannot parse are passed through and left to the caller's robust-date path. -/
def gitLogRange (log : List RawCommit) (since untl : DateT) : List RawCommit :=
  log.filter fun c =>
    match c.date with
    | some d => DateT.dle since d && DateT.dle d untl
    | none => true

/-! ## Commit Month Cache build (_buildMonthCommits, GitService.js:119-244) -/

/-- The per-repository task of `_buildMonthCommits` (GitService.js:149-227):
run the month-scoped log query, robustly convert each commit's date (skip
the commit if unparseable, line 185), resolve a branch from the ref
decoration with a `git name-rev` fallback (lines 186-203), and normalize.
A name-rev failure leaves the refs-derived value (possibly empty) in place. -/
def buildRepoMonthCommits (env : Env) (repoInfo : RepoInfo) (since untl : DateT) :
    List Commit :=
  (gitLogRange (env.logOf repoInfo.path) since untl).filterMap fun c =>
    match c.date with
    | none => none
    | some d =>
      let fromRefs : Option (List Char) :=
        if c.refs.isEmpty then none else extractBranchFromRefs c.refs
      let branchInfo : Option (List Char) :=
        if jsCharsTruthy fromRefs then fromRefs
        else
          match env.nameRev repoInfo.path c.hash with
          | some b => some b
          | none => fromRefs
      some { repository := jsOrStr repoInfo.displayName repoInfo.name,
             repositoryId := repoInfo.repositoryId,
             hash := c.hash, author := c.author, authorEmail := c.authorEmail,
             date := d, message := c.message, branch := branchInfo }

/-- Embedding of `_buildMonthCommits` (GitService.js:119-244): for every
active workspace, list its repositories (through the workspace repository
cache, which returns the same list as a fresh scan in this read-only
environment), keep only named repositories, collect each repository's
month-scoped commits, concatenate and sort descending by date. -/
def buildMonthCommits (env : Env) (key : MonthKey) : List Commit :=
  let since := monthStart key
  let untl := monthEnd key
  sortByDateDesc
    ((env.workspaces.map fun ws =>
      let reposToUse := selectNamedReposOnly (env.reposOf ws.root_path)
      (reposToUse.map fun repoInfo =>
        buildRepoMonthCommits env repoInfo since untl).flatten).flatten)

/-! ## Commit month cache state (_getOrRefreshMonthCacheAsync, GitService.js:246-267) -/

/-- A month-cache entry (GitService.js:19, 252-257). -/
structure MonthEntry where
  commits : List Commit
  updatedAt : Nat
  expiresAt : Nat
  approxBytes : Nat
deriving DecidableEq, Repr

/-- The `commitMonthCache` map, as an insertion-ordered association list. -/
def MonthCache : Type := List (MonthKey × MonthEntry)

/-- `Map.prototype.get`. -/
def lookupMonth (cache : MonthCache) (k : MonthKey) : Option MonthEntry :=
  match List.find? (fun p => p.1 == k) cache with
  | some p => some p.2
  | none => none

/-- `Map.prototype.set` (replace in place, else append). -/
def setMonth (cache : MonthCache) (k : MonthKey) (v : MonthEntry) : MonthCache :=
  match cache with
  | [] => [(k, v)]
  | (k', v') :: rest =>
    if k' == k then (k, v) :: rest else (k', v') :: setMonth rest k v

/-- Embedding of `_isCacheExpired` (GitService.js:109-112):
`!entry || (entry.expiresAt || 0) < now`. -/
def isCacheExpired (nowMs : Nat) (entry : Option MonthEntry) : Bool :=
  match entry with
  | none => true
  | some e => e.expiresAt < nowMs

/-- Embedding of `_getOrRefreshMonthCacheAsync` (GitService.js:246-267):
absent or expired entries are rebuilt and stored with expiry `now + TTL`;
an unexpired entry is served as is, with its expiry pushed to `now + TTL`
when the caller marked the key as the current month (keep-warm, line 263).
The `(entry?, not expired)` combination with an absent entry cannot occur
(`isCacheExpired` is true on `none`); that branch returns the state
unchanged. -/
def getOrRefreshMonthCache (env : Env) (nowMs : Nat) (key : MonthKey)
    (isCurrent : Bool) (cache : MonthCache) : List Commit × MonthCache :=
  let entry? := lookupMonth cache key
  if isCacheExpired nowMs entry? then
    let commits := buildMonthCommits env key
    let e : MonthEntry :=
      ⟨commits, nowMs, nowMs + env.commitMonthCacheTTL * 1000, env.estimateBytes commits⟩
    (commits, setMonth cache key e)
  else
    match entry? with
    | some e =>
      if isCurrent then
        (e.commits,
         setMonth cache key { e with expiresAt := nowMs + env.commitMonthCacheTTL * 1000 })
      else (e.commits, cache)
    | none => ([], cache)

/-! ## Query Aggregator (getCommitsFromWorkspaces, GitService.js:610-765) -/

/-- The query options object of `getCommitsFromWorkspaces`. -/
structure QueryOptions where
  limit : Option Nat
  noCache : Bool
  branch : Option String
deriving DecidableEq, Repr

/-- Per-repository soft cap (GitService.js:639-641):
`options.limit ? Math.max(10, Math.ceil(options.limit / Math.max(1, n)) + 5) : null`
(a zero limit is falsy in JavaScript). -/
def perRepoMaxOf (limit? : Option Nat) (repoCount : Nat) : Option Nat :=
  match limit? with
  | some l =>
    if l == 0 then none
    else some (max 10 ((l + (max 1 repoCount) - 1) / (max 1 repoCount) + 5))
  | none => none

/-- The tool's log query as the direct (cache-bypass) path invokes it
(GitService.js:681-692): over all refs (`--all`), with author filter,
date range, configurable merge exclusion and an output cap (`--max-count`,
newest first), each applied only when supplied. -/
def gitLogQuery (env : Env) (path : String) (author? : Option String)
    (since? untl? : Option DayDate) (excludeMerges : Bool)
    (maxCount? : Option Nat) : List RawCommit :=
  let l := env.logAllOf path
  let l := if excludeMerges then l.filter (fun c => !c.isMerge) else l
  let l := match author? with
    | some p => l.filter (fun c => env.gitAuthorMatch p c)
    | none => l
  let l := match since? with
    | some s => l.filter (fun c =>
        match c.date with
        | some d => DateT.dle s.atStart d
        | none => true)
    | none => l
  let l := match untl? with
    | some u => l.filter (fun c =>
        match c.date with
        | some d => DateT.dle d u.atEnd
        | none => true)
    | none => l
  match maxCount? with
  | some m => l.take m
  | none => l

/-- The direct-path per-repository task (GitService.js:669-746): query the
log over the full requested range, robustly convert dates (warn and skip on
failure, lines 695-707), re-check the caller's exact bounds (lines 708-709)
and normalize.  The pushed `branch` field re-derives from the ref
decoration only (line 738). -/
def directRepoCommits (env : Env) (userPattern : Option String)
    (effectiveStart untilDate : Option DayDate)
    (startBound endBound : Option DateT) (excludeMerges : Bool)
    (perRepoMax : Option Nat) (repoInfo : RepoInfo) : List Commit :=
  (gitLogQuery env repoInfo.path userPattern effectiveStart untilDate
      excludeMerges perRepoMax).filterMap fun c =>
    match c.date with
    | none => none
    | some d =>
      if (match startBound with | some sb => DateT.dlt d sb | none => false) then none
      else if (match endBound with | some eb => DateT.dlt eb d | none => false) then none
      else
        some { repository := jsOrStr repoInfo.displayName repoInfo.name,
               repositoryId := repoInfo.repositoryId,
               hash := c.hash, author := c.author, authorEmail := c.authorEmail,
               date := d, message := c.message,
               branch := if c.refs.isEmpty then none
                         else extractBranchFromRefs c.refs }

/-- Linear month numbering used to enumerate `YYYY-MM` keys. -/
def monthIndex (k : MonthKey) : Nat := k.y * 12 + (k.mo - 1)

/-- Inverse of `monthIndex` on well-formed keys. -/
def monthOfIndex (i : Nat) : MonthKey := ⟨i / 12, i % 12 + 1⟩

/-- Embedding of `_listMonthsBetween` (GitService.js:98-107) as used at
lines 645-647: the `YYYY-MM` keys from the start instant's month (default:
the end instant's month) through the end instant's month. -/
def listMonthsBetween (s? : Option DateT) (e : DateT) : List MonthKey :=
  let endKey := monthKeyOf e
  let startKey := match s? with | some s => monthKeyOf s | none => endKey
  let si := monthIndex startKey
  let ei := monthIndex endKey
  if si ≤ ei then (List.range (ei - si + 1)).map (fun i => monthOfIndex (si + i))
  else []

/-- The cached branch of the per-workspace loop (GitService.js:643-667):
determine the covered months, always include the current month
(deduplicated, line 650), fetch every month bucket through the cache, and
filter the concatenation by workspace repository membership, the caller's
exact date bounds, and the author pattern. -/
def cachedWsCommits (env : Env) (nowMs : Nat) (nowDate : DateT)
    (userPattern : Option String) (startBound endBound : Option DateT)
    (effectiveStart : Option DayDate) (reposToUse : List RepoInfo)
    (cache : MonthCache) : List Commit × MonthCache :=
  let s? : Option DateT := match startBound with
    | some sb => some sb
    | none => match effectiveStart with
      | some es => some es.atStart
      | none => none
  let e : DateT := match endBound with | some eb => eb | none => nowDate
  let currentKey := monthKeyOf nowDate
  let months := listMonthsBetween s? e
  let keys := if months.contains currentKey then months else months ++ [currentKey]
  let step := fun (acc : List (List Commit) × MonthCache) (k : MonthKey) =>
    let r := getOrRefreshMonthCache env nowMs k (k == currentKey) acc.2
    (acc.1 ++ [r.1], r.2)
  let built := keys.foldl step ([], cache)
  let repoIds := reposToUse.filterMap (fun r => r.repositoryId)
  let pushed := built.1.flatten.filter fun c =>
    (match c.repositoryId with | some id => repoIds.contains id | none => false) &&
    !(match startBound with | some sb => DateT.dlt c.date sb | none => false) &&
    !(match endBound with | some eb => DateT.dlt eb c.date | none => false) &&
    (match userPattern with
     | some p => if p == "" then true
                 else env.reTest p c.author || env.reTest p c.authorEmail
     | none => true)
  (pushed, built.2)

/-- One iteration of the workspace loop of `getCommitsFromWorkspaces`
(GitService.js:630-754): list the workspace's repositories, drop unnamed
ones unless `includeUnnamed`, then take the cached branch unless `noCache`
or `includeUnnamed` forces direct querying. -/
def collectWs (env : Env) (nowMs : Nat) (nowDate : DateT)
    (userPattern : Option String) (endDate : Option DayDate)
    (includeUnnamed : Bool) (opts : QueryOptions)
    (effectiveStart : Option DayDate) (startBound endBound : Option DateT)
    (ws : Workspace) (cache : MonthCache) : List Commit × MonthCache :=
  let repos := env.reposOf ws.root_path
  let reposToUse := if includeUnnamed then repos
    else repos.filter fun r => !(r.hasGitlabConfig && !(jsStrTruthy r.displayName))
  if reposToUse.isEmpty then ([], cache)
  else if !opts.noCache && !includeUnnamed then
    cachedWsCommits env nowMs nowDate userPattern startBound endBound
      effectiveStart reposToUse cache
  else
    let perRepoMax := perRepoMaxOf opts.limit reposToUse.length
    ((reposToUse.map (directRepoCommits env userPattern effectiveStart endDate
        startBound endBound env.excludeMerges perRepoMax)).flatten, cache)

/-- Embedding of `getCommitsFromWorkspaces` (GitService.js:610-765).
`nowMs` is `Date.now()` and `nowDate` the calendar reading of the same
instant (`moment()`).  `effectiveStart` is `startDate` because
`DEFAULT_SINCE_DAYS` defaults to 0 (lines 615-616); the embedding models
that default configuration.  The function first keeps the current month's
bucket warm (lines 621-626), then loops over workspaces accumulating
commits, and finally sorts descending by date and applies the optional
global limit (lines 759-764; a zero limit is falsy and skips the slice). -/
def getCommitsFromWorkspaces (env : Env) (nowMs : Nat) (nowDate : DateT)
    (userPattern : Option String) (startDate endDate : Option DayDate)
    (includeUnnamed : Bool) (opts : QueryOptions) (cache : MonthCache) :
    List Commit × MonthCache :=
  let startBound := startDate.map DayDate.atStart
  let endBound := endDate.map DayDate.atEnd
  let effectiveStart := startDate
  let cache₁ := (getOrRefreshMonthCache env nowMs (monthKeyOf nowDate) true cache).2
  let folded := env.workspaces.foldl
    (fun (acc : List Commit × MonthCache) ws =>
      let r := collectWs env nowMs nowDate userPattern endDate includeUnnamed
        opts effectiveStart startBound endBound ws acc.2
      (acc.1 ++ r.1, r.2))
    ([], cache₁)
  let sorted := sortByDateDesc folded.1
  match opts.limit with
  | some l => if l == 0 then (sorted, folded.2) else (sorted.take (max 1 l), folded.2)
  | none => (sorted, folded.2)

/-! ## The commits endpoint (GET /commits, src/unnamed/part_006:147-201) -/

/-- Embedding of the `GET /commits` handler's result page for integer query
parameters `page, limit ≥ 1` (the handler clamps both to at least 1 and the
claims range over pages 1, 2, ...): request the aggregator with an early
limit of `page * limit` commits, then slice
`[(page-1)*limit, (page-1)*limit + limit)`. -/
def commitsEndpointPage (env : Env) (nowMs : Nat) (nowDate : DateT)
    (userPattern : Option String) (startDate endDate : Option DayDate)
    (includeUnnamed noCache : Bool) (page limit : Nat) (cache : MonthCache) :
    List Commit :=
  let pgNum := max 1 page
  let lmNum := max 1 limit
  let earlyLimit := pgNum * lmNum
  let commits := (getCommitsFromWorkspaces env nowMs nowDate userPattern
      startDate endDate includeUnnamed ⟨some earlyLimit, noCache, none⟩ cache).1
  (commits.drop ((page - 1) * limit)).take limit

/-- The full, unpaginated sorted result underlying the endpoint: the same
aggregator query with no result-count limit. -/
def unpaginatedCommits (env : Env) (nowMs : Nat) (nowDate : DateT)
    (userPattern : Option String) (startDate endDate : Option DayDate)
    (includeUnnamed noCache : Bool) (cache : MonthCache) : List Commit :=
  (getCommitsFromWorkspaces env nowMs nowDate userPattern startDate endDate
      includeUnnamed ⟨none, noCache, none⟩ cache).1

/-! ## getCommitsByUser (GitService.js:484-535) -/

/-- A JavaScript runtime error. -/
inductive JsError where
  | referenceErr (name : String)
deriving DecidableEq, Repr

/-- A registered repository row (`git_repositories`), as held in
`this.repositories`. -/
structure RegRepo where
  name : String
  display_name : Option String
  path : String
deriving DecidableEq, Repr

/-- The per-repository task of `getCommitsByUser` (GitService.js:492-530).
The task builds `format` and `simpleGitOptions`, then line 508 evaluates
`repo.git.log({ format }, customArgs)` — but no `customArgs` binding exists
in that method (it is a local of the unrelated `searchCommits`), so
evaluating the argument throws `ReferenceError: customArgs is not defined`
before any log query runs.  The task therefore always fails. -/
def getCommitsByUserRepoTask (env : Env) (userPattern : Option String)
    (startDate endDate : Option DayDate) (repoId : Nat) (repo : RegRepo) :
    Except JsError (List Commit) :=
  Except.error (JsError.referenceErr "customArgs")

/-- Embedding of `getCommitsByUser` (GitService.js:484-535): filter the
registered repositories by the id set, run the per-repository tasks through
the task runner (deterministically equivalent to an index-aligned map),
catch each task's failure at the task boundary as an empty contribution
(lines 526-529), concatenate and sort. -/
def getCommitsByUser (env : Env) (registered : List (Nat × RegRepo))
    (userPattern : Option String) (startDate endDate : Option DayDate)
    (repositoryIds : Option (List Nat)) : List Commit :=
  let entries : List (Nat × RegRepo) := match repositoryIds with
    | some ids => registered.filter fun p => ids.contains p.1
    | none => registered
  let grouped := entries.map fun p =>
    match getCommitsByUserRepoTask env userPattern startDate endDate p.1 p.2 with
    | Except.ok v => v
    | Except.error _ => []
  sortByDateDesc grouped.flatten

/-! ## Concurrency-limited task runner (_mapConcurrent, GitService.js:26-39)

The runner is the one genuinely concurrent primitive, so it is embedded as a
small-step transition system rather than a function: a state holds the shared
cursor (`let index = 0`), one status per logical worker, the results array and
a record of which tasks have been started.  A scheduler step either lets an
idle worker claim the next index (`const i = index++`; the worker returns if
`i >= items.length`, else the mapper is invoked, marking the task started) or
lets a running worker's awaited mapper settle (fulfil, writing
`results[i] = value` and looping, or reject, which terminates that worker's
loop for good while `index` and the sibling workers are untouched).
Quantifying over all step interleavings quantifies over all completion
orders. -/

/-- Status of one logical worker of `_mapConcurrent`. -/
inductive WState where
  | idle
  | running (i : Nat)
  | done
  | dead
deriving DecidableEq, Repr

/-- A runner state: shared cursor, worker statuses, the results array
(`none` = slot not yet assigned) and which tasks have been started. -/
structure RunnerState (β : Type) where
  cursor : Nat
  workers : List WState
  results : List (Option β)
  started : List Bool
deriving DecidableEq, Repr

/-- The state in which `_mapConcurrent` spawns its workers:
`Array.from({length: Math.min(concurrency, items.length || 0)})`
(GitService.js:30) with the cursor at 0 and an empty results array. -/
def runnerInit (β : Type) (workerCount taskCount : Nat) : RunnerState β :=
  ⟨0, List.replicate workerCount WState.idle,
   List.replicate taskCount none, List.replicate taskCount false⟩

/-- Is no worker currently running task `j`? -/
def noWorkerRunning (workers : List WState) (j : Nat) : Bool :=
  workers.all fun st => st != WState.running j

/-- One scheduler step of `_mapConcurrent` for the task list `items`, the
mapper, and `raises a i` telling whether `mapper(a, i)` rejects. -/
inductive RunnerStep (items : List α) (mapper : α → Nat → β)
    (raises : α → Nat → Bool) : RunnerState β → RunnerState β → Prop where
  | claimOver (s : RunnerState β) (w : Nat)
      (hw : s.workers[w]? = some WState.idle)
      (hc : items.length ≤ s.cursor) :
      RunnerStep items mapper raises s
        { s with workers := s.workers.set w WState.done, cursor := s.cursor + 1 }
  | claimTask (s : RunnerState β) (w : Nat)
      (hw : s.workers[w]? = some WState.idle)
      (hc : s.cursor < items.length) :
      RunnerStep items mapper raises s
        { s with workers := s.workers.set w (WState.running s.cursor),
                 started := s.started.set s.cursor true,
                 cursor := s.cursor + 1 }
  | finishOk (s : RunnerState β) (w i : Nat) (a : α)
      (hw : s.workers[w]? = some (WState.running i))
      (ha : items[i]? = some a)
      (hr : raises a i = false) :
      RunnerStep items mapper raises s
        { s with workers := s.workers.set w WState.idle,
                 results := s.results.set i (some (mapper a i)) }
  | finishRaise (s : RunnerState β) (w i : Nat) (a : α)
      (hw : s.workers[w]? = some (WState.running i))
      (ha : items[i]? = some a)
      (hr : raises a i = true) :
      RunnerStep items mapper raises s
        { s with workers := s.workers.set w WState.dead }

/-- All schedules of `_mapConcurrent(items, mapper, limit)` with parallelism
`P = Math.max(1, limit)`: reachability from the spawn state with
`min P items.length` workers. -/
def MapConcurrentRun (P : Nat) (items : List α) (mapper : α → Nat → β)
    (raises : α → Nat → Bool) (s : RunnerState β) : Prop :=
  Relation.ReflTransGen (RunnerStep items mapper raises)
    (runnerInit β (min P items.length) items.length) s

/-- `await Promise.all(workers)` resolves: every worker loop has returned. -/
def RunnerDone (s : RunnerState β) : Prop :=
  ∀ w ∈ s.workers, w = WState.done

/-- The runner has settled: every worker loop has either returned or been
terminated by a rejected task. -/
def RunnerSettled (s : RunnerState β) : Prop :=
  ∀ w ∈ s.workers, w = WState.done ∨ w = WState.dead

/-- The value `results[j]` must hold in any reachable state: the mapper's
value exactly when task `j` was claimed, does not raise, and is no longer in
flight. -/
def finishedVal (items : List α) (mapper : α → Nat → β)
    (raises : α → Nat → Bool) (cursor : Nat) (workers : List WState)
    (j : Nat) : Option β :=
  match items[j]? with
  | none => none
  | some a =>
    if decide (j < cursor) && !(raises a j) && noWorkerRunning workers j then
      some (mapper a j)
    else none

/-- Number of workers terminated by a rejected task. -/
def deadCount (workers : List WState) : Nat :=
  workers.countP fun st => st == WState.dead

/-- Number of claimed, raising tasks that are no longer in flight. -/
def raisedRetired (items : List α) (raises : α → Nat → Bool)
    (cursor : Nat) (workers : List WState) : Nat :=
  (List.range items.length).countP fun j =>
    decide (j < cursor) &&
    (match items[j]? with | some a => raises a j | none => false) &&
    noWorkerRunning workers j

/-- Number of tasks in the list whose mapper invocation rejects. -/
def raisingCount (items : List α) (raises : α → Nat → Bool) : Nat :=
  (List.range items.length).countP fun j =>
    match items[j]? with | some a => raises a j | none => false

/-! ## Repository Discovery Scanner (scanForRepositories, GitService.js:1185-1379)

The filesystem is a finite map from (segment-list) paths to directory nodes;
a node records whether `hasGitRepo` holds of that directory (the `.git`
entry / bare-repository / `.git`-suffix heuristics of lines 1204-1228, all
filesystem probes) and its child directories with their names and symlink
status.  Paths absent from the map are unreadable directories, which the
walk skips silently (lines 1368-1371). -/

/-- A directory as the walk observes it. -/
structure FSNode where
  isRepo : Bool
  children : List (String × Bool)
deriving DecidableEq, Repr

/-- A filesystem: a finite map from paths to directories. -/
def FS : Type := List (List String × FSNode)

/-- Read a directory, `none` for unreadable/absent. -/
def fsLookup (fs : FS) (p : List String) : Option FSNode :=
  match List.find? (fun e => e.1 == p) fs with
  | some e => some e.2
  | none => none

/-- Case-insensitive exclusion-set test (GitService.js:1202):
`ex.toLowerCase() === name.toLowerCase()`, character-wise. -/
def isExcludedName (exclude : List String) (name : String) : Bool :=
  exclude.any fun ex =>
    ex.toList.map Char.toLower == name.toList.map Char.toLower

/-- Embedding of the recursive `walk` of `scanForRepositories`
(GitService.js:1281-1372), returning the recorded repository paths in
discovery order.  A directory that is itself a repository root is recorded
and not descended into (line 1348); otherwise child directories are walked
with one less depth unless excluded by name or an unfollowed symlink
(lines 1351-1366); the `depth < 0` guard of line 1282 is the depth-0 cutoff
here (children are only visited with remaining depth). -/
def walkDir (fs : FS) (exclude : List String) (follow : Bool) :
    Nat → List String → List (List String)
  | depth, pre =>
    match fsLookup fs pre with
    | none => []
    | some node =>
      if node.isRepo then [pre]
      else
        match depth with
        | 0 => []
        | d + 1 =>
          (node.children.filter fun c =>
              !(isExcludedName exclude c.1) && (follow || !c.2)).flatMap
            fun c => walkDir fs exclude follow d (pre ++ [c.1])

/-- The repository paths `scanForRepositories(rootPath, options)` returns:
the walk from the normalized root with `maxDepth`.  The registry side
effects (lines 1294-1336) and the final sort-by-name (line 1377) annotate
and permute the records without changing the recorded path set. -/
def scanForRepositoriesPaths (fs : FS) (root : List String) (maxDepth : Nat)
    (exclude : List String) (follow : Bool) : List (List String) :=
  walkDir fs exclude follow maxDepth root

/-! ## Concrete instances used to evaluate the definitions -/

/-- A one-workspace, one-repository, one-commit environment. -/
def wsA : Workspace := ⟨"/ws", "ws"⟩

/-- The single repository of `envA`: named by folder, registered as id 1. -/
def repoA : RepoInfo := ⟨"alpha", none, "/ws/alpha", some 1, false⟩

/-- The single raw commit of `envA`, dated 2024-03-10. -/
def rawA : RawCommit := ⟨"h1", "alice", "a@x", some ⟨2024, 3, 10, 5⟩, "m1", [], false⟩

def envA : Env :=
  { workspaces := [wsA],
    reposOf := fun p => if p == "/ws" then [repoA] else [],
    logOf := fun p => if p == "/ws/alpha" then [rawA] else [],
    logAllOf := fun p => if p == "/ws/alpha" then [rawA] else [],
    nameRev := fun _ _ => none,
    reTest := fun _ _ => false,
    gitAuthorMatch := fun _ _ => false,
    estimateBytes := fun l => l.length,
    commitMonthCacheTTL := 900,
    excludeMerges := true }

/-- The normalized form of `rawA` in the 2024-03 bucket. -/
def commitA : Commit :=
  ⟨"alpha", some 1, "h1", "alice", "a@x", ⟨2024, 3, 10, 5⟩, "m1", none⟩

/-- An environment showing the cache-bypass pagination divergence: one
workspace with two registered repositories, `p1` holding twelve January
commits (days 30 down to 19, newest first) and `p2` one older January
commit (day 2). -/
def rawB (day : Nat) : RawCommit :=
  ⟨"h", "u", "e", some ⟨2024, 1, day, 0⟩, "m", [], false⟩

def repoB1 : RepoInfo := ⟨"r1", none, "p1", some 1, false⟩

def repoB2 : RepoInfo := ⟨"r2", none, "p2", some 2, false⟩

def envB : Env :=
  { workspaces := [⟨"/w", "w"⟩],
    reposOf := fun p => if p == "/w" then [repoB1, repoB2] else [],
    logOf := fun _ => [],
    logAllOf := fun p =>
      if p == "p1" then (List.range 12).map (fun i => rawB (30 - i))
      else if p == "p2" then [rawB 2] else [],
    nameRev := fun _ _ => none,
    reTest := fun _ _ => false,
    gitAuthorMatch := fun _ _ => false,
    estimateBytes := fun l => l.length,
    commitMonthCacheTTL := 900,
    excludeMerges := true }

/-- The terminal runner state of the concrete two-worker schedule used to
evaluate the task runner: both tasks claimed, both mappers settled, both
worker loops returned. -/
def c2Final : RunnerState Nat :=
  ⟨4, [WState.done, WState.done], [some 10, some 21], [true, true]⟩

/-- A month-cache entry whose expiry instant 100 has passed at time 200. -/
def staleEntryC : MonthEntry := ⟨[commitA], 50, 100, 1⟩

/-- A month-cache entry still fresh at time 200. -/
def freshEntryC : MonthEntry := ⟨[commitA], 50, 300, 1⟩

/-- The spec's discovery scenario as a filesystem: root `/r` holds a
working-tree repository `a`, a bare repository at `b/c`, and a repository
`node_modules/d` under an excluded name. -/
def fsC : FS :=
  [([], ⟨false, [("a", false), ("b", false), ("node_modules", false)]⟩),
   (["a"], ⟨true, []⟩),
   (["b"], ⟨false, [("c", false)]⟩),
   (["b", "c"], ⟨true, []⟩),
   (["node_modules"], ⟨false, [("d", false)]⟩),
   (["node_modules", "d"], ⟨true, []⟩)]

/-- The default exclusion set (GitService.js:1186). -/
def defaultExclude : List String :=
  ["node_modules", ".git", ".hg", ".svn", "dist", "build", ".next"]

/-- The inductive invariant of the task runner: lengths are stable, a task
is started exactly when the cursor has passed it, running tasks are claimed,
in range and claimed by one worker each, every results slot holds exactly
the value `finishedVal` prescribes, a returned worker loop certifies an
exhausted cursor, and dead workers are bounded by the retired raising
tasks. -/
structure RunnerInv (items : List α) (mapper : α → Nat → β)
    (raises : α → Nat → Bool) (W : Nat) (cursor : Nat)
    (workers : List WState) (results : List (Option β))
    (started : List Bool) : Prop where
  workersLen : workers.length = W
  resultsLen : results.length = items.length
  startedLen : started.length = items.length
  startedIff : ∀ j, j < items.length →
    (started.getD j false = true ↔ j < cursor)
  runBound : ∀ w i : Nat, workers[w]? = some (WState.running i) →
    i < cursor ∧ i < items.length
  runDistinct : ∀ w w' i : Nat, workers[w]? = some (WState.running i) →
    workers[w']? = some (WState.running i) → w = w'
  resultsEq : ∀ j, results.getD j none =
    finishedVal items mapper raises cursor workers j
  doneCursor : WState.done ∈ workers → items.length ≤ cursor
  deadLe : deadCount workers ≤ raisedRetired items raises cursor workers

/-! ## Basic lemmas -/

theorem mem_insSortIns (le : α → α → Bool) (x a : α) (l : List α) :
    a ∈ insSortIns le x l ↔ a = x ∨ a ∈ l := by
  induction l with
  | nil => simp [insSortIns]
  | cons y ys ih =>
    simp only [insSortIns]
    split
    · simp
    · simp only [List.mem_cons, ih]
      tauto

theorem mem_insSort (le : α → α → Bool) (a : α) (l : List α) :
    a ∈ insSort le l ↔ a ∈ l := by
  induction l with
  | nil => simp [insSort]
  | cons x xs ih => simp [insSort, mem_insSortIns, ih]

theorem mem_sortByDateDesc (c : Commit) (l : List Commit) :
    c ∈ sortByDateDesc l ↔ c ∈ l := by
  simp [sortByDateDesc, mem_insSort]

theorem dlt_iff (a b : DateT) : DateT.dlt a b = true ↔
    (a.y < b.y ∨ (a.y = b.y ∧ (a.mo < b.mo ∨ (a.mo = b.mo ∧
      (a.d < b.d ∨ (a.d = b.d ∧ a.ms < b.ms)))))) := by
  simp [DateT.dlt]

theorem dle_iff (a b : DateT) : DateT.dle a b = true ↔
    (a.y < b.y ∨ (a.y = b.y ∧ (a.mo < b.mo ∨ (a.mo = b.mo ∧
      (a.d < b.d ∨ (a.d = b.d ∧ a.ms ≤ b.ms)))))) := by
  simp [DateT.dle]

theorem dle_of_dlt_eq_false (a b : DateT) (h : DateT.dlt a b = false) :
    DateT.dle b a = true := by
  have h' : ¬(DateT.dlt a b = true) := by simp [h]
  rw [dlt_iff] at h'
  rw [dle_iff]
  omega

theorem month_of_bounds (k : MonthKey) (d : DateT)
    (h1 : DateT.dle (monthStart k) d = true)
    (h2 : DateT.dle d (monthEnd k) = true) : d.y = k.y ∧ d.mo = k.mo := by
  simp only [DateT.dle, monthStart, monthEnd, Bool.or_eq_true, Bool.and_eq_true,
    decide_eq_true_eq, beq_iff_eq] at h1 h2
  omega

/-! ## C1: month buckets contain only commits of their calendar month -/

theorem buildRepoMonthCommits_date (env : Env) (repoInfo : RepoInfo)
    (since untl : DateT) (c : Commit)
    (hc : c ∈ buildRepoMonthCommits env repoInfo since untl) :
    DateT.dle since c.date = true ∧ DateT.dle c.date untl = true := by
  simp only [buildRepoMonthCommits, List.mem_filterMap] at hc
  obtain ⟨raw, hraw, hmk⟩ := hc
  simp only [gitLogRange, List.mem_filter] at hraw
  rcases hd : raw.date with _ | d
  · rw [hd] at hmk
    simp at hmk
  · rw [hd] at hmk
    simp only [Option.some.injEq] at hmk
    have hdate : c.date = d := by rw [← hmk]
    rw [hd] at hraw
    have hpred := hraw.2
    simp only [Bool.and_eq_true] at hpred
    rw [hdate]
    exact hpred

/-- C1: For every month bucket built by the Commit Month Cache
(`_buildMonthCommits`), every commit stored in that bucket has a date that
falls within that bucket's calendar month: between the first and the last
day of the month named by the `YYYY-MM` key, and in particular with that
key's year and month. -/
theorem c1_month_bucket (env : Env) (key : MonthKey) (c : Commit)
    (hc : c ∈ buildMonthCommits env key) :
    c.date.y = key.y ∧ c.date.mo = key.mo ∧
    DateT.dle (monthStart key) c.date = true ∧
    DateT.dle c.date (monthEnd key) = true := by
  simp only [buildMonthCommits, mem_sortByDateDesc, List.mem_flatten,
    List.mem_map] at hc
  obtain ⟨l, ⟨ws, hws, hl⟩, hcl⟩ := hc
  subst hl
  simp only [List.mem_flatten, List.mem_map] at hcl
  obtain ⟨l2, ⟨repoInfo, hrep, hl2⟩, hcl⟩ := hcl
  subst hl2
  have hb := buildRepoMonthCommits_date env repoInfo (monthStart key)
    (monthEnd key) c hcl
  have hm := month_of_bounds key c.date hb.1 hb.2
  exact ⟨hm.1, hm.2, hb.1, hb.2⟩

/-- Witness for C1: the concrete 2024-03 bucket of `envA` contains
`commitA`, whose date 2024-03-10 lies in 2024-03. -/
theorem c1_month_bucket_witness :
    commitA.date.y = (MonthKey.mk 2024 3).y ∧
    commitA.date.mo = (MonthKey.mk 2024 3).mo ∧
    DateT.dle (monthStart ⟨2024, 3⟩) commitA.date = true ∧
    DateT.dle commitA.date (monthEnd ⟨2024, 3⟩) = true :=
  c1_month_bucket envA ⟨2024, 3⟩ commitA (by decide)

/-! ## C9: the named-repository filter -/

/-- C9: `_selectNamedReposOnly` excludes a repository if and only if it
carries GitLab configuration but no resolvable (truthy) display name; a
repository with no hosting configuration is always kept. -/
theorem c9_named_repo_filter (repos : List RepoInfo) :
    (∀ r : RepoInfo, r ∈ selectNamedReposOnly repos ↔
      (r ∈ repos ∧ ¬(r.hasGitlabConfig = true ∧ jsStrTruthy r.displayName = false))) ∧
    (∀ r : RepoInfo, r ∈ repos → r.hasGitlabConfig = false →
      r ∈ selectNamedReposOnly repos) := by
  constructor
  · intro r
    simp only [selectNamedReposOnly, List.mem_filter, Bool.not_eq_eq_eq_not,
      Bool.not_true, Bool.and_eq_false_iff, Bool.not_eq_false]
    constructor
    · rintro ⟨hr, hp⟩
      refine ⟨hr, ?_⟩
      rintro ⟨hg, hd⟩
      rcases hp with hp | hp
      · rw [hg] at hp; cases hp
      · rw [hd] at hp; cases hp
    · rintro ⟨hr, hp⟩
      refine ⟨hr, ?_⟩
      by_cases hg : r.hasGitlabConfig = true
      · right
        by_cases hd : jsStrTruthy r.displayName = true
        · simpa using hd
        · exact absurd ⟨hg, by simpa using hd⟩ hp
      · left; simpa using hg
  · intro r hr hg
    simp only [selectNamedReposOnly, List.mem_filter]
    exact ⟨hr, by rw [hg]; rfl⟩

/-! ## C10: branch resolution prefers remote-tracking refs -/

/-- C10: whenever the ref decoration holds remote-tracking candidates,
`extractBranchFromRefs` returns the first one in decoration order with the
`origin/` prefix stripped — so `"origin/main, main, HEAD -> main"` resolves
to `"main"` (see the witness). -/
theorem c10_branch_preference (refs b : List Char) (bs : List (List Char))
    (h : originCandidates refs = b :: bs) :
    extractBranchFromRefs refs = some (replaceFirst originPre [] b) := by
  have hne : refs.isEmpty = false := by
    rcases he : refs.isEmpty with _ | _
    · rfl
    · rw [List.isEmpty_iff] at he
      subst he
      rw [show originCandidates [] = [] from by decide] at h
      cases h
  rw [extractBranchFromRefs, hne]
  rw [h]
  rfl

/-- Witness for C10: the spec's scenario decoration resolves to `main`. -/
theorem c10_branch_preference_witness :
    extractBranchFromRefs ("origin/main, main, HEAD -> main".toList) =
      some ("main".toList) := by
  have h := c10_branch_preference ("origin/main, main, HEAD -> main".toList)
    ("origin/main".toList) [] (by decide)
  exact h.trans (by decide)

/-! ## C3: getCommitsByUser always returns the empty list -/

/-- C3: for every author pattern, date range and repository filter,
`getCommitsByUser` returns `[]`: its per-repository task evaluates the
undefined `customArgs` (GitService.js:508), the resulting ReferenceError is
caught at the task boundary (lines 526-529), and every repository
contributes zero commits. -/
theorem c3_commits_by_user_empty (env : Env) (registered : List (Nat × RegRepo))
    (userPattern : Option String) (startDate endDate : Option DayDate)
    (repositoryIds : Option (List Nat)) :
    getCommitsByUser env registered userPattern startDate endDate
      repositoryIds = [] := by
  have hflat : ∀ l : List (Nat × RegRepo),
      ((l.map fun _ => ([] : List Commit)).flatten) = [] := by
    intro l
    induction l with
    | nil => rfl
    | cons h t ih => simp [ih]
  simp only [getCommitsByUser, getCommitsByUserRepoTask]
  rcases repositoryIds with _ | ids
  · rw [hflat registered]; rfl
  · rw [hflat (registered.filter fun p => ids.contains p.1)]; rfl

/-! ## C6: month cache refresh/serve/keep-warm policy -/

theorem lookupMonth_setMonth (cache : MonthCache) (k : MonthKey) (v : MonthEntry) :
    lookupMonth (setMonth cache k v) k = some v := by
  induction cache with
  | nil => simp [setMonth, lookupMonth, List.find?]
  | cons p rest ih =>
    rcases p with ⟨k', v'⟩
    simp only [setMonth]
    rcases hk : (k' == k) with _ | _
    · simpa [lookupMonth, List.find?, hk] using ih
    · simp [lookupMonth, List.find?]

/-- C6: for every key, clock instant and cache state, the month-cache
accessor `_getOrRefreshMonthCacheAsync` (a) rebuilds an absent-or-expired
bucket and stores it with expiry `now + TTL` before returning the fresh
commits, and (b) serves an unexpired bucket unchanged — same commit list,
same build instant, so no rebuild — extending its expiry to `now + TTL`
exactly when the key was flagged as the current month (keep-warm). -/
theorem c6_month_cache_policy (env : Env) (nowMs : Nat) (key : MonthKey)
    (isCurrent : Bool) (cache : MonthCache) :
    (isCacheExpired nowMs (lookupMonth cache key) = true →
      (getOrRefreshMonthCache env nowMs key isCurrent cache).1 =
        buildMonthCommits env key ∧
      lookupMonth (getOrRefreshMonthCache env nowMs key isCurrent cache).2 key =
        some ⟨buildMonthCommits env key, nowMs,
          nowMs + env.commitMonthCacheTTL * 1000,
          env.estimateBytes (buildMonthCommits env key)⟩) ∧
    (∀ e : MonthEntry, lookupMonth cache key = some e →
      isCacheExpired nowMs (some e) = false →
      (getOrRefreshMonthCache env nowMs key isCurrent cache).1 = e.commits ∧
      lookupMonth (getOrRefreshMonthCache env nowMs key isCurrent cache).2 key =
        some { e with expiresAt := if isCurrent then
          nowMs + env.commitMonthCacheTTL * 1000 else e.expiresAt }) := by
  constructor
  · intro hexp
    refine ⟨?_, ?_⟩
    · simp [getOrRefreshMonthCache, hexp]
    · simp only [getOrRefreshMonthCache, hexp, if_true]
      exact lookupMonth_setMonth cache key _
  · intro e he hfresh
    refine ⟨?_, ?_⟩
    · simp only [getOrRefreshMonthCache, he, hfresh, Bool.false_eq_true, if_false]
      rcases isCurrent with _ | _ <;> simp
    · simp only [getOrRefreshMonthCache, he, hfresh, Bool.false_eq_true, if_false]
      rcases isCurrent with _ | _
      · simpa using he
      · simpa using lookupMonth_setMonth cache key
          { e with expiresAt := nowMs + env.commitMonthCacheTTL * 1000 }

/-! ## C5: aggregator results respect the requested date bounds -/

theorem cachedWsCommits_mem_bounds (env : Env) (nowMs : Nat) (nowDate : DateT)
    (up : Option String) (sbv ebv : DateT) (effS : Option DayDate)
    (repos : List RepoInfo) (cache : MonthCache) (c : Commit)
    (hc : c ∈ (cachedWsCommits env nowMs nowDate up (some sbv) (some ebv)
      effS repos cache).1) :
    DateT.dle sbv c.date = true ∧ DateT.dle c.date ebv = true := by
  simp only [cachedWsCommits] at hc
  have hpred := (List.mem_filter.mp hc).2
  rw [Bool.and_eq_true, Bool.and_eq_true, Bool.and_eq_true] at hpred
  obtain ⟨⟨⟨-, hs⟩, he⟩, -⟩ := hpred
  rw [Bool.not_eq_true'] at hs he
  exact ⟨dle_of_dlt_eq_false c.date sbv hs, dle_of_dlt_eq_false ebv c.date he⟩

theorem directRepoCommits_mem_bounds (env : Env) (up : Option String)
    (effS untilDate : Option DayDate) (sbv ebv : DateT) (em : Bool)
    (prm : Option Nat) (repoInfo : RepoInfo) (c : Commit)
    (hc : c ∈ directRepoCommits env up effS untilDate (some sbv) (some ebv)
      em prm repoInfo) :
    DateT.dle sbv c.date = true ∧ DateT.dle c.date ebv = true := by
  simp only [directRepoCommits, List.mem_filterMap] at hc
  obtain ⟨raw, -, hmk⟩ := hc
  split at hmk
  · cases hmk
  · rename_i d hd
    split at hmk
    · cases hmk
    · split at hmk
      · cases hmk
      · rename_i hA hB
        rw [Bool.not_eq_true] at hA hB
        simp only [Option.some.injEq] at hmk
        have hdate : c.date = d := by rw [← hmk]
        rw [hdate]
        exact ⟨dle_of_dlt_eq_false d sbv hA, dle_of_dlt_eq_false ebv d hB⟩

theorem directFlatten_mem_bounds (env : Env) (up : Option String)
    (effS untilDate : Option DayDate) (sbv ebv : DateT) (em : Bool)
    (prm : Option Nat) (repos : List RepoInfo) (c : Commit)
    (hc : c ∈ (repos.map (directRepoCommits env up effS untilDate (some sbv)
      (some ebv) em prm)).flatten) :
    DateT.dle sbv c.date = true ∧ DateT.dle c.date ebv = true := by
  rw [List.mem_flatten] at hc
  obtain ⟨l, hl, hcl⟩ := hc
  rw [List.mem_map] at hl
  obtain ⟨repoInfo, -, hfl⟩ := hl
  subst hfl
  exact directRepoCommits_mem_bounds env up effS untilDate sbv ebv em prm
    repoInfo c hcl

theorem collectWs_mem_bounds (env : Env) (nowMs : Nat) (nowDate : DateT)
    (up : Option String) (endDate : Option DayDate) (incl : Bool)
    (opts : QueryOptions) (effS : Option DayDate) (sbv ebv : DateT)
    (ws : Workspace) (cache : MonthCache) (c : Commit)
    (hc : c ∈ (collectWs env nowMs nowDate up endDate incl opts effS
      (some sbv) (some ebv) ws cache).1) :
    DateT.dle sbv c.date = true ∧ DateT.dle c.date ebv = true := by
  simp only [collectWs] at hc
  repeat' split at hc
  all_goals
    first
    | exact absurd hc (List.not_mem_nil _)
    | exact cachedWsCommits_mem_bounds env nowMs nowDate up sbv ebv effS _ cache c hc
    | exact directFlatten_mem_bounds env up effS endDate sbv ebv
        env.excludeMerges _ _ c hc

theorem foldl_collect_mem (env : Env) (nowMs : Nat) (nowDate : DateT)
    (up : Option String) (endDate : Option DayDate) (incl : Bool)
    (opts : QueryOptions) (effS : Option DayDate) (sb eb : Option DateT)
    (c : Commit) :
    ∀ (wss : List Workspace) (acc : List Commit × MonthCache),
      c ∈ (wss.foldl (fun (acc : List Commit × MonthCache) ws =>
        let r := collectWs env nowMs nowDate up endDate incl opts effS sb eb
          ws acc.2
        (acc.1 ++ r.1, r.2)) acc).1 →
      c ∈ acc.1 ∨ ∃ ws ∈ wss, ∃ ca : MonthCache,
        c ∈ (collectWs env nowMs nowDate up endDate incl opts effS sb eb ws ca).1 := by
  intro wss
  induction wss with
  | nil => intro acc hc; exact Or.inl hc
  | cons w ws ih =>
    intro acc hc
    rcases ih _ hc with hmem | ⟨ws', hws', ca, hca⟩
    · rcases List.mem_append.mp hmem with h | h
      · exact Or.inl h
      · exact Or.inr ⟨w, List.mem_cons_self w ws, acc.2, h⟩
    · exact Or.inr ⟨ws', List.mem_cons_of_mem w hws', ca, hca⟩

/-- C5: when both `startDate` and `endDate` are supplied, every commit the
Query Aggregator `getCommitsFromWorkspaces` returns — through the cached
path or the direct path alike — has a date within
`[startOf(startDate), endOf(endDate)]`, inclusive. -/
theorem c5_aggregator_bounds (env : Env) (nowMs : Nat) (nowDate : DateT)
    (up : Option String) (sd ed : DayDate) (incl : Bool) (opts : QueryOptions)
    (cache : MonthCache) (c : Commit)
    (hc : c ∈ (getCommitsFromWorkspaces env nowMs nowDate up (some sd)
      (some ed) incl opts cache).1) :
    DateT.dle sd.atStart c.date = true ∧ DateT.dle c.date ed.atEnd = true := by
  have key : ∀ ca : MonthCache,
      c ∈ sortByDateDesc ((env.workspaces.foldl
        (fun (acc : List Commit × MonthCache) ws =>
          let r := collectWs env nowMs nowDate up (some ed) incl opts (some sd)
            (some sd.atStart) (some ed.atEnd) ws acc.2
          (acc.1 ++ r.1, r.2)) ([], ca)).1) →
      DateT.dle sd.atStart c.date = true ∧ DateT.dle c.date ed.atEnd = true := by
    intro ca h
    rw [mem_sortByDateDesc] at h
    rcases foldl_collect_mem env nowMs nowDate up (some ed) incl opts (some sd)
        (some sd.atStart) (some ed.atEnd) c env.workspaces _ h with
      h0 | ⟨ws, -, ca', hca⟩
    · simp at h0
    · exact collectWs_mem_bounds env nowMs nowDate up (some ed) incl opts
        (some sd) sd.atStart ed.atEnd ws ca' c hca
  simp only [getCommitsFromWorkspaces, Option.map_some] at hc
  split at hc
  · split at hc
    · exact key _ hc
    · exact key _ (List.mem_of_mem_take hc)
  · exact key _ hc

/-- Witness for C5: the March 2024 query against `envA` returns `commitA`,
whose date lies within the requested bounds. -/
theorem c5_aggregator_bounds_witness :
    DateT.dle (DayDate.atStart ⟨2024, 3, 1⟩) commitA.date = true ∧
    DateT.dle commitA.date (DayDate.atEnd ⟨2024, 3, 31⟩) = true :=
  c5_aggregator_bounds envA 0 ⟨2024, 3, 15, 0⟩ none ⟨2024, 3, 1⟩ ⟨2024, 3, 31⟩
    false ⟨none, false, none⟩ [] commitA (by decide)

/-! ## C7: pagination over the commits endpoint -/

theorem collectWs_limit_indep (env : Env) (nowMs : Nat) (nowDate : DateT)
    (up : Option String) (endDate : Option DayDate) (effS : Option DayDate)
    (sb eb : Option DateT) (ws : Workspace) (cache : MonthCache)
    (l₁ l₂ : Option Nat) (b₁ b₂ : Option String) :
    collectWs env nowMs nowDate up endDate false ⟨l₁, false, b₁⟩ effS sb eb ws cache =
    collectWs env nowMs nowDate up endDate false ⟨l₂, false, b₂⟩ effS sb eb ws cache := by
  simp [collectWs]

theorem foldl_collect_limit_indep (env : Env) (nowMs : Nat) (nowDate : DateT)
    (up : Option String) (endDate : Option DayDate) (effS : Option DayDate)
    (sb eb : Option DateT) (l₁ l₂ : Option Nat) (b₁ b₂ : Option String) :
    ∀ (wss : List Workspace) (acc : List Commit × MonthCache),
      wss.foldl (fun (acc : List Commit × MonthCache) ws =>
        let r := collectWs env nowMs nowDate up endDate false ⟨l₁, false, b₁⟩
          effS sb eb ws acc.2
        (acc.1 ++ r.1, r.2)) acc =
      wss.foldl (fun (acc : List Commit × MonthCache) ws =>
        let r := collectWs env nowMs nowDate up endDate false ⟨l₂, false, b₂⟩
          effS sb eb ws acc.2
        (acc.1 ++ r.1, r.2)) acc := by
  intro wss
  induction wss with
  | nil => intro acc; rfl
  | cons w ws ih =>
    intro acc
    simp only [List.foldl_cons]
    rw [collectWs_limit_indep env nowMs nowDate up endDate effS sb eb w acc.2
      l₁ l₂ b₁ b₂]
    exact ih _

theorem getCFW_cached_take (env : Env) (nowMs : Nat) (nowDate : DateT)
    (up : Option String) (sd ed : Option DayDate) (cache : MonthCache)
    (E : Nat) (hE : 1 ≤ E) :
    (getCommitsFromWorkspaces env nowMs nowDate up sd ed false
      ⟨some E, false, none⟩ cache).1 =
    ((getCommitsFromWorkspaces env nowMs nowDate up sd ed false
      ⟨none, false, none⟩ cache).1).take E := by
  have hE0 : (E == 0) = false := by
    rcases E with _ | e
    · omega
    · rfl
  have hmax : max 1 E = E := Nat.max_eq_right hE
  simp only [getCommitsFromWorkspaces, hE0, Bool.false_eq_true, if_false, hmax]
  rw [foldl_collect_limit_indep env nowMs nowDate up ed sd
    (sd.map DayDate.atStart) (ed.map DayDate.atEnd) (some E) none none none]

theorem endpointPage_eq_chunk (env : Env) (nowMs : Nat) (nowDate : DateT)
    (up : Option String) (sd ed : Option DayDate) (cache : MonthCache)
    (p L : Nat) (hp : 1 ≤ p) (hL : 1 ≤ L) :
    commitsEndpointPage env nowMs nowDate up sd ed false false p L cache =
    ((unpaginatedCommits env nowMs nowDate up sd ed false false cache).drop
      ((p - 1) * L)).take L := by
  have hp' : max 1 p = p := Nat.max_eq_right hp
  have hL' : max 1 L = L := Nat.max_eq_right hL
  have hpl : 1 ≤ p * L := Nat.mul_le_mul hp hL
  simp only [commitsEndpointPage, unpaginatedCommits, hp', hL']
  rw [getCFW_cached_take env nowMs nowDate up sd ed cache (p * L) hpl]
  rw [List.drop_take]
  have hsub : p * L - (p - 1) * L = L := by
    obtain ⟨q, rfl⟩ : ∃ q, p = q + 1 := ⟨p - 1, by omega⟩
    simp only [Nat.succ_sub_one, Nat.succ_mul]
    omega
  rw [hsub, List.take_take, min_self]

theorem join_chunks (S : List Commit) (L : Nat) :
    ∀ k : Nat, ((List.range k).map (fun i => (S.drop (i * L)).take L)).flatten =
      S.take (k * L) := by
  intro k
  induction k with
  | zero => simp
  | succ k ih =>
    rw [List.range_succ, List.map_append, List.flatten_append, ih]
    simp only [List.map_cons, List.map_nil, List.flatten_cons, List.flatten_nil,
      List.append_nil]
    rw [Nat.succ_mul, List.take_add]

/-- C7 (amended): over the cached path (`noCache` and `includeUnnamed` both
false) and a fixed underlying state, concatenating the commits endpoint's
pages 1..k at a fixed `limit = L ≥ 1` yields exactly the first `k·L`
commits of the full unpaginated, date-descending result; as soon as `k·L`
covers its length, the concatenation is the whole list, each commit once.
(Under cache bypass the per-repository `--max-count` cap breaks this; see
the counterexample.) -/
theorem c7_pagination_cached (env : Env) (nowMs : Nat) (nowDate : DateT)
    (up : Option String) (sd ed : Option DayDate) (cache : MonthCache)
    (L k : Nat) (hL : 1 ≤ L) :
    ((List.range k).map (fun i =>
      commitsEndpointPage env nowMs nowDate up sd ed false false (i + 1) L
        cache)).flatten =
      (unpaginatedCommits env nowMs nowDate up sd ed false false cache).take
        (k * L) ∧
    ((unpaginatedCommits env nowMs nowDate up sd ed false false cache).length
        ≤ k * L →
      ((List.range k).map (fun i =>
        commitsEndpointPage env nowMs nowDate up sd ed false false (i + 1) L
          cache)).flatten =
        unpaginatedCommits env nowMs nowDate up sd ed false false cache) := by
  have hjoin : ((List.range k).map (fun i =>
      commitsEndpointPage env nowMs nowDate up sd ed false false (i + 1) L
        cache)).flatten =
      (unpaginatedCommits env nowMs nowDate up sd ed false false cache).take
        (k * L) := by
    have hcongr : (List.range k).map (fun i =>
        commitsEndpointPage env nowMs nowDate up sd ed false false (i + 1) L
          cache) =
        (List.range k).map (fun i =>
          ((unpaginatedCommits env nowMs nowDate up sd ed false false
            cache).drop (i * L)).take L) := by
      apply List.map_congr_left
      intro i _
      rw [endpointPage_eq_chunk env nowMs nowDate up sd ed cache (i + 1) L
        (by omega) hL]
      simp
    rw [hcongr, join_chunks]
  refine ⟨hjoin, fun hlen => ?_⟩
  rw [hjoin]
  exact List.take_of_length_le hlen

/-- Witness for C7: two pages of size one over `envA` concatenate to the
first two commits of the unpaginated result. -/
theorem c7_pagination_cached_witness :
    ((List.range 2).map (fun i =>
      commitsEndpointPage envA 0 ⟨2024, 3, 15, 0⟩ none (some ⟨2024, 3, 1⟩)
        (some ⟨2024, 3, 31⟩) false false (i + 1) 1 [])).flatten =
      (unpaginatedCommits envA 0 ⟨2024, 3, 15, 0⟩ none (some ⟨2024, 3, 1⟩)
        (some ⟨2024, 3, 31⟩) false false []).take 2 :=
  (c7_pagination_cached envA 0 ⟨2024, 3, 15, 0⟩ none (some ⟨2024, 3, 1⟩)
    (some ⟨2024, 3, 31⟩) [] 1 2 (by decide)).1

/-- Counterexample to C7 as stated: under cache bypass (`noCache = true`)
against `envB`, pages 1..3 at limit 6 concatenate to a list that duplicates
one commit and omits another, so the concatenation is not the unpaginated
result (the per-repository `--max-count` soft cap truncates the larger
repository differently at different early limits). -/
theorem c7_pagination_counterexample :
    ¬(((List.range 3).map (fun i =>
      commitsEndpointPage envB 0 ⟨2024, 2, 5, 0⟩ none (some ⟨2024, 1, 1⟩)
        (some ⟨2024, 1, 31⟩) false true (i + 1) 6 [])).flatten =
      unpaginatedCommits envB 0 ⟨2024, 2, 5, 0⟩ none (some ⟨2024, 1, 1⟩)
        (some ⟨2024, 1, 31⟩) false true []) := by
  decide

/-! ## List helper lemmas for the runner proofs -/

theorem getD_set_self (l : List γ) (i : Nat) (v d : γ) (h : i < l.length) :
    (l.set i v).getD i d = v := by
  induction l generalizing i with
  | nil => simp at h
  | cons x xs ih =>
    rcases i with _ | i
    · rfl
    · simp only [List.set_cons_succ, List.getD_cons_succ]
      exact ih i (by simpa using h)

theorem getD_set_ne (l : List γ) (i j : Nat) (v d : γ) (h : i ≠ j) :
    (l.set i v).getD j d = l.getD j d := by
  induction l generalizing i j with
  | nil => simp [List.set_nil]
  | cons x xs ih =>
    rcases i with _ | i
    · rcases j with _ | j
      · exact absurd rfl h
      · rfl
    · rcases j with _ | j
      · rfl
      · simp only [List.set_cons_succ, List.getD_cons_succ]
        exact ih i j (by omega)

theorem getD_replicate (n : Nat) (a d : γ) (j : Nat) (h : j < n) :
    (List.replicate n a).getD j d = a := by
  induction n generalizing j with
  | zero => omega
  | succ n ih =>
    rcases j with _ | j
    · rfl
    · simp only [List.replicate_succ, List.getD_cons_succ]
      exact ih j (by omega)

theorem getElem?_set_self' (l : List γ) (i : Nat) (v : γ) (h : i < l.length) :
    (l.set i v)[i]? = some v := by
  induction l generalizing i with
  | nil => simp at h
  | cons x xs ih =>
    rcases i with _ | i
    · simp
    · simp only [List.set_cons_succ, List.getElem?_cons_succ]
      exact ih i (by simpa using h)

theorem getElem?_set_ne' (l : List γ) (i j : Nat) (v : γ) (h : i ≠ j) :
    (l.set i v)[j]? = l[j]? := by
  induction l generalizing i j with
  | nil => simp [List.set_nil]
  | cons x xs ih =>
    rcases i with _ | i
    · rcases j with _ | j
      · exact absurd rfl h
      · simp
    · rcases j with _ | j
      · simp
      · simp only [List.set_cons_succ, List.getElem?_cons_succ]
        exact ih i j (by omega)

theorem lt_length_of_getElem?' (l : List γ) (i : Nat) (a : γ)
    (h : l[i]? = some a) : i < l.length := by
  induction l generalizing i with
  | nil => simp at h
  | cons x xs ih =>
    rcases i with _ | i
    · simp
    · simp only [List.getElem?_cons_succ] at h
      have := ih i h
      simp only [List.length_cons]
      omega

theorem all_iff_forall_getElem? (l : List γ) (p : γ → Bool) :
    l.all p = true ↔ ∀ (k : Nat) (v : γ), l[k]? = some v → p v = true := by
  constructor
  · intro h k v hk
    rw [List.all_eq_true] at h
    induction l generalizing k with
    | nil => simp at hk
    | cons x xs ih =>
      rcases k with _ | k
      · simp only [List.getElem?_cons_zero, Option.some.injEq] at hk
        exact hk ▸ h x (List.mem_cons_self x xs)
      · exact ih (fun a ha => h a (List.mem_cons_of_mem x ha)) k
          (by simpa using hk)
  · intro h
    rw [List.all_eq_true]
    intro x hx
    obtain ⟨k, hk⟩ := List.getElem?_of_mem hx
    exact h k x hk

theorem all_set_congr (l : List γ) (w : Nat) (v : γ) (p : γ → Bool)
    (h : ∀ old, l[w]? = some old → p old = p v) :
    (l.set w v).all p = l.all p := by
  induction l generalizing w with
  | nil => simp [List.set_nil]
  | cons x xs ih =>
    rcases w with _ | w
    · simp only [List.set_cons_zero, List.all_cons]
      rw [h x (by simp)]
    · simp only [List.set_cons_succ, List.all_cons]
      rw [ih w (fun old ho => h old (by simpa using ho))]

theorem all_false_of_getElem? (l : List γ) (w : Nat) (v : γ) (p : γ → Bool)
    (hw : l[w]? = some v) (hv : p v = false) : l.all p = false := by
  rcases h : l.all p with _ | _
  · rfl
  · rw [all_iff_forall_getElem? l p] at h
    rw [h w v hw] at hv
    cases hv

theorem countP_set_congr (l : List γ) (w : Nat) (v : γ) (p : γ → Bool)
    (h : ∀ old, l[w]? = some old → p old = p v) :
    (l.set w v).countP p = l.countP p := by
  induction l generalizing w with
  | nil => simp [List.set_nil]
  | cons x xs ih =>
    rcases w with _ | w
    · simp only [List.set_cons_zero, List.countP_cons]
      rw [h x (by simp)]
    · simp only [List.set_cons_succ, List.countP_cons]
      rw [ih w (fun old ho => h old (by simpa using ho))]

theorem countP_set_incr (l : List γ) (w : Nat) (v old : γ) (p : γ → Bool)
    (hw : l[w]? = some old) (hold : p old = false) (hv : p v = true) :
    (l.set w v).countP p = l.countP p + 1 := by
  induction l generalizing w with
  | nil => simp at hw
  | cons x xs ih =>
    rcases w with _ | w
    · simp only [List.getElem?_cons_zero, Option.some.injEq] at hw
      subst hw
      simp [List.set_cons_zero, List.countP_cons, hold, hv]
    · simp only [List.getElem?_cons_succ] at hw
      simp only [List.set_cons_succ, List.countP_cons]
      rw [ih w hw]
      omega

theorem countP_congr' (l : List γ) (p q : γ → Bool)
    (h : ∀ a ∈ l, p a = q a) : l.countP p = l.countP q := by
  induction l with
  | nil => rfl
  | cons x xs ih =>
    simp only [List.countP_cons]
    rw [h x (List.mem_cons_self x xs),
      ih (fun a ha => h a (List.mem_cons_of_mem x ha))]

theorem countP_mono' (l : List γ) (p q : γ → Bool)
    (h : ∀ a ∈ l, p a = true → q a = true) : l.countP p ≤ l.countP q := by
  induction l with
  | nil => exact Nat.le_refl 0
  | cons x xs ih =>
    simp only [List.countP_cons]
    have ht := ih (fun a ha => h a (List.mem_cons_of_mem x ha))
    rcases hp : p x with _ | _
    · rcases hq : q x with _ | _
      · simp [hp, hq]
        omega
      · simp [hp, hq]
        omega
    · rw [h x (List.mem_cons_self x xs) hp]
      simp [hp]
      omega

theorem countP_incr_at (l : List γ) (i : γ) (p q : γ → Bool)
    (hi : i ∈ l) (hnd : l.Nodup) (hpi : p i = false) (hqi : q i = true)
    (h : ∀ j ∈ l, j ≠ i → p j = q j) : l.countP q = l.countP p + 1 := by
  induction l with
  | nil => simp at hi
  | cons x xs ih =>
    rcases List.mem_cons.mp hi with heq | hmem
    · subst heq
      have hxs : ∀ a ∈ xs, p a = q a := by
        intro a ha
        have hne : a ≠ i := fun he => (List.nodup_cons.mp hnd).1 (he ▸ ha)
        exact h a (List.mem_cons_of_mem i ha) hne
      simp only [List.countP_cons, hpi, hqi]
      rw [countP_congr' xs p q hxs]
      simp
    · have hnx : x ≠ i := by
        rintro rfl
        exact (List.nodup_cons.mp hnd).1 hmem
      have hx := h x (List.mem_cons_self x xs) hnx
      simp only [List.countP_cons]
      rw [ih hmem (List.nodup_cons.mp hnd).2
        (fun j hj hne => h j (List.mem_cons_of_mem x hj) hne), hx]
      omega

theorem mem_of_getElem?' (l : List γ) (i : Nat) (a : γ) (h : l[i]? = some a) :
    a ∈ l := by
  induction l generalizing i with
  | nil => simp at h
  | cons x xs ih =>
    rcases i with _ | i
    · simp only [List.getElem?_cons_zero, Option.some.injEq] at h
      exact h ▸ List.mem_cons_self x xs
    · simp only [List.getElem?_cons_succ] at h
      exact List.mem_cons_of_mem x (ih i h)

theorem getD_replicate_self (n : Nat) (a : γ) (j : Nat) :
    (List.replicate n a).getD j a = a := by
  induction n generalizing j with
  | zero => simp
  | succ n ih =>
    rcases j with _ | j
    · rfl
    · simp only [List.replicate_succ, List.getD_cons_succ]
      exact ih j

theorem countP_replicate_zero (n : Nat) (a : γ) (p : γ → Bool)
    (h : p a = false) : (List.replicate n a).countP p = 0 := by
  induction n with
  | zero => rfl
  | succ n ih => simp [List.replicate_succ, List.countP_cons, h, ih]

/-! ## Runner invariant: initialization and preservation -/

theorem finishedVal_congr (items : List α) (mapper : α → Nat → β)
    (raises : α → Nat → Bool) (c₁ c₂ : Nat) (ws₁ ws₂ : List WState) (j : Nat)
    (hcur : decide (j < c₁) = decide (j < c₂))
    (hnw : noWorkerRunning ws₁ j = noWorkerRunning ws₂ j) :
    finishedVal items mapper raises c₁ ws₁ j =
    finishedVal items mapper raises c₂ ws₂ j := by
  unfold finishedVal
  cases items[j]? with
  | none => rfl
  | some a => rw [hcur, hnw]

theorem noWorkerRunning_set_congr (workers : List WState) (w : Nat)
    (v : WState) (j : Nat)
    (h : ∀ old, workers[w]? = some old →
      ((old != WState.running j) = (v != WState.running j))) :
    noWorkerRunning (workers.set w v) j = noWorkerRunning workers j :=
  all_set_congr workers w v _ h

theorem noWorkerRunning_def (workers : List WState) (j : Nat) :
    noWorkerRunning workers j =
      workers.all (fun st => st != WState.running j) := rfl

theorem runnerInv_init (items : List α) (mapper : α → Nat → β)
    (raises : α → Nat → Bool) (W : Nat) :
    RunnerInv items mapper raises W 0 (List.replicate W WState.idle)
      (List.replicate items.length none)
      (List.replicate items.length false) := by
  refine ⟨?_, ?_, ?_, ?_, ?_, ?_, ?_, ?_, ?_⟩
  · simp
  · simp
  · simp
  · intro j hj
    rw [getD_replicate_self]
    simp
  · intro w i h
    have := List.eq_of_mem_replicate (mem_of_getElem?' _ _ _ h)
    cases this
  · intro w w' i h1 h2
    have := List.eq_of_mem_replicate (mem_of_getElem?' _ _ _ h1)
    cases this
  · intro j
    rw [getD_replicate_self]
    cases hj : items[j]? with
    | none => simp [finishedVal, hj]
    | some a => simp [finishedVal, hj]
  · intro h
    have := List.eq_of_mem_replicate h
    cases this
  · simp only [deadCount]
    rw [countP_replicate_zero]
    · exact Nat.zero_le _
    · rfl

theorem runnerInv_claimOver (items : List α) (mapper : α → Nat → β)
    (raises : α → Nat → Bool) (W cursor : Nat) (workers : List WState)
    (results : List (Option β)) (started : List Bool) (w : Nat)
    (hInv : RunnerInv items mapper raises W cursor workers results started)
    (hw : workers[w]? = some WState.idle)
    (hc : items.length ≤ cursor) :
    RunnerInv items mapper raises W (cursor + 1) (workers.set w WState.done)
      results started := by
  obtain ⟨hWL, hRL, hSL, hSI, hRB, hRD, hRE, hDC, hDL⟩ := hInv
  have hwlt : w < workers.length := lt_length_of_getElem?' _ _ _ hw
  have hnw : ∀ j : Nat, noWorkerRunning (workers.set w WState.done) j =
      noWorkerRunning workers j := by
    intro j
    exact noWorkerRunning_set_congr workers w _ j
      (fun old ho => by rw [ho] at hw; cases hw; rfl)
  refine ⟨?_, hRL, hSL, ?_, ?_, ?_, ?_, ?_, ?_⟩
  · simpa using hWL
  · intro j hj
    rw [hSI j hj]
    constructor <;> intro <;> omega
  · intro w' i h
    by_cases hww : w' = w
    · rw [hww, getElem?_set_self' _ _ _ hwlt] at h
      cases h
    · rw [getElem?_set_ne' _ _ _ _ (fun he => hww he.symm)] at h
      obtain ⟨h1, h2⟩ := hRB w' i h
      exact ⟨by omega, h2⟩
  · intro w1 w2 i h1 h2
    by_cases h1w : w1 = w
    · rw [h1w, getElem?_set_self' _ _ _ hwlt] at h1
      cases h1
    · by_cases h2w : w2 = w
      · rw [h2w, getElem?_set_self' _ _ _ hwlt] at h2
        cases h2
      · rw [getElem?_set_ne' _ _ _ _ (fun he => h1w he.symm)] at h1
        rw [getElem?_set_ne' _ _ _ _ (fun he => h2w he.symm)] at h2
        exact hRD w1 w2 i h1 h2
  · intro j
    rw [hRE j]
    cases hj : items[j]? with
    | none =>
      unfold finishedVal
      rw [hj]
    | some a =>
      have hjN : j < items.length := lt_length_of_getElem?' _ _ _ hj
      apply (finishedVal_congr items mapper raises (cursor + 1) cursor _ _ j
        ?_ (hnw j)).symm
      have d1 : decide (j < cursor + 1) = true := by
        simp only [decide_eq_true_eq]
        omega
      have d2 : decide (j < cursor) = true := by
        simp only [decide_eq_true_eq]
        omega
      rw [d1, d2]
  · intro h
    rcases List.mem_or_eq_of_mem_set h with h' | h'
    · have := hDC h'
      omega
    · omega
  · have hd : deadCount (workers.set w WState.done) = deadCount workers := by
      simp only [deadCount]
      exact countP_set_congr _ _ _ _ (fun old ho => by rw [ho] at hw; cases hw; rfl)
    have hr : raisedRetired items raises (cursor + 1)
        (workers.set w WState.done) = raisedRetired items raises cursor workers := by
      simp only [raisedRetired]
      apply countP_congr'
      intro j hj
      rw [List.mem_range] at hj
      have d1 : decide (j < cursor + 1) = true := by
        simp only [decide_eq_true_eq]
        omega
      have d2 : decide (j < cursor) = true := by
        simp only [decide_eq_true_eq]
        omega
      rw [d1, d2, hnw j]
    rw [hd, hr]
    exact hDL

theorem runnerInv_claimTask (items : List α) (mapper : α → Nat → β)
    (raises : α → Nat → Bool) (W cursor : Nat) (workers : List WState)
    (results : List (Option β)) (started : List Bool) (w : Nat)
    (hInv : RunnerInv items mapper raises W cursor workers results started)
    (hw : workers[w]? = some WState.idle)
    (hc : cursor < items.length) :
    RunnerInv items mapper raises W (cursor + 1)
      (workers.set w (WState.running cursor)) results
      (started.set cursor true) := by
  obtain ⟨hWL, hRL, hSL, hSI, hRB, hRD, hRE, hDC, hDL⟩ := hInv
  have hwlt : w < workers.length := lt_length_of_getElem?' _ _ _ hw
  have hnw : ∀ j : Nat, j ≠ cursor →
      noWorkerRunning (workers.set w (WState.running cursor)) j =
      noWorkerRunning workers j := by
    intro j hj
    apply noWorkerRunning_set_congr
    intro old ho
    rw [ho] at hw
    cases hw
    have hx : (WState.running cursor != WState.running j) = true := by
      simp only [bne_iff_ne, ne_eq, WState.running.injEq]
      exact fun he => hj he.symm
    rw [hx]
    rfl
  have hnwc : noWorkerRunning (workers.set w (WState.running cursor)) cursor =
      false := by
    apply all_false_of_getElem? _ w (WState.running cursor)
    · exact getElem?_set_self' _ _ _ hwlt
    · simp
  have hrm : ∀ w' i : Nat,
      (workers.set w (WState.running cursor))[w']? =
        some (WState.running i) → (w' = w ∧ i = cursor) ∨
        (w' ≠ w ∧ workers[w']? = some (WState.running i)) := by
    intro w' i h
    by_cases hww : w' = w
    · rw [hww, getElem?_set_self' _ _ _ hwlt] at h
      left
      refine ⟨hww, ?_⟩
      cases h
      rfl
    · right
      rw [getElem?_set_ne' _ _ _ _ (fun he => hww he.symm)] at h
      exact ⟨hww, h⟩
  refine ⟨?_, hRL, ?_, ?_, ?_, ?_, ?_, ?_, ?_⟩
  · simpa using hWL
  · simpa using hSL
  · intro j hj
    by_cases hjc : j = cursor
    · rw [hjc, getD_set_self _ _ _ _ (by omega)]
      simp
    · rw [getD_set_ne _ _ _ _ _ (fun he => hjc he.symm)]
      rw [hSI j hj]
      constructor <;> intro <;> omega
  · intro w' i h
    rcases hrm w' i h with ⟨-, hic⟩ | ⟨-, h'⟩
    · rw [hic]
      exact ⟨by omega, hc⟩
    · obtain ⟨h1, h2⟩ := hRB w' i h'
      exact ⟨by omega, h2⟩
  · intro w1 w2 i h1 h2
    rcases hrm w1 i h1 with ⟨h1w, hic⟩ | ⟨h1w, h1'⟩
    · rcases hrm w2 i h2 with ⟨h2w, -⟩ | ⟨-, h2'⟩
      · rw [h1w, h2w]
      · obtain ⟨hlt, -⟩ := hRB w2 i h2'
        omega
    · rcases hrm w2 i h2 with ⟨h2w, hic⟩ | ⟨h2w, h2'⟩
      · obtain ⟨hlt, -⟩ := hRB w1 i h1'
        omega
      · exact hRD w1 w2 i h1' h2'
  · intro j
    rw [hRE j]
    by_cases hjc : j = cursor
    · subst hjc
      unfold finishedVal
      cases hj : items[j]? with
      | none => rfl
      | some a =>
        rw [hnwc]
        have d0 : decide (j < j) = false := by simp
        rw [d0]
        simp
    · apply (finishedVal_congr items mapper raises (cursor + 1) cursor _ _ j
        ?_ (hnw j hjc)).symm
      rcases Nat.lt_or_ge j cursor with hlt | hge
      · have d1 : decide (j < cursor + 1) = true := by
          simp only [decide_eq_true_eq]
          omega
        have d2 : decide (j < cursor) = true := by
          simp only [decide_eq_true_eq]
          omega
        rw [d1, d2]
      · have d1 : decide (j < cursor + 1) = false := by
          simp only [decide_eq_false_iff_not]
          omega
        have d2 : decide (j < cursor) = false := by
          simp only [decide_eq_false_iff_not]
          omega
        rw [d1, d2]
  · intro h
    rcases List.mem_or_eq_of_mem_set h with h' | h'
    · have := hDC h'
      omega
    · cases h'
  · have hd : deadCount (workers.set w (WState.running cursor)) =
        deadCount workers := by
      simp only [deadCount]
      exact countP_set_congr _ _ _ _ (fun old ho => by rw [ho] at hw; cases hw; rfl)
    have hr : raisedRetired items raises (cursor + 1)
        (workers.set w (WState.running cursor)) =
        raisedRetired items raises cursor workers := by
      simp only [raisedRetired]
      apply countP_congr'
      intro j hj
      rw [List.mem_range] at hj
      by_cases hjc : j = cursor
      · subst hjc
        rw [hnwc]
        have d2 : decide (j < j) = false := by simp
        rw [d2]
        simp
      · rw [hnw j hjc]
        rcases Nat.lt_or_ge j cursor with hlt | hge
        · have d1 : decide (j < cursor + 1) = true := by
            simp only [decide_eq_true_eq]
            omega
          have d2 : decide (j < cursor) = true := by
            simp only [decide_eq_true_eq]
            omega
          rw [d1, d2]
        · have d1 : decide (j < cursor + 1) = false := by
            simp only [decide_eq_false_iff_not]
            omega
          have d2 : decide (j < cursor) = false := by
            simp only [decide_eq_false_iff_not]
            omega
          rw [d1, d2]
    rw [hd, hr]
    exact hDL

theorem runnerInv_finishOk (items : List α) (mapper : α → Nat → β)
    (raises : α → Nat → Bool) (W cursor : Nat) (workers : List WState)
    (results : List (Option β)) (started : List Bool) (w i : Nat) (a : α)
    (hInv : RunnerInv items mapper raises W cursor workers results started)
    (hw : workers[w]? = some (WState.running i))
    (ha : items[i]? = some a) (hr : raises a i = false) :
    RunnerInv items mapper raises W cursor (workers.set w WState.idle)
      (results.set i (some (mapper a i))) started := by
  obtain ⟨hWL, hRL, hSL, hSI, hRB, hRD, hRE, hDC, hDL⟩ := hInv
  have hwlt : w < workers.length := lt_length_of_getElem?' _ _ _ hw
  obtain ⟨hic, hiN⟩ := hRB w i hw
  have hnw : ∀ j : Nat, j ≠ i →
      noWorkerRunning (workers.set w WState.idle) j =
      noWorkerRunning workers j := by
    intro j hj
    apply noWorkerRunning_set_congr
    intro old ho
    rw [ho] at hw
    cases hw
    have hx : (WState.running i != WState.running j) = true := by
      simp only [bne_iff_ne, ne_eq, WState.running.injEq]
      exact fun he => hj he.symm
    rw [hx]
    rfl
  have hrm : ∀ w' i' : Nat,
      (workers.set w WState.idle)[w']? = some (WState.running i') →
      w' ≠ w ∧ workers[w']? = some (WState.running i') := by
    intro w' i' h
    by_cases hww : w' = w
    · rw [hww, getElem?_set_self' _ _ _ hwlt] at h
      cases h
    · rw [getElem?_set_ne' _ _ _ _ (fun he => hww he.symm)] at h
      exact ⟨hww, h⟩
  have hnwi : noWorkerRunning (workers.set w WState.idle) i = true := by
    rw [noWorkerRunning_def, all_iff_forall_getElem?]
    intro k v hk
    rcases v with _ | i' | _ | _
    · rfl
    · obtain ⟨hkw, hk'⟩ := hrm k i' hk
      have hne' : i' ≠ i := fun he => hkw (hRD k w i (he ▸ hk') hw)
      simp only [bne_iff_ne, ne_eq, WState.running.injEq]
      exact fun he => hne' he
    · rfl
    · rfl
  have hnwsi : noWorkerRunning workers i = false := by
    rw [noWorkerRunning_def]
    apply all_false_of_getElem? _ w (WState.running i) _ hw
    simp
  refine ⟨?_, ?_, hSL, hSI, ?_, ?_, ?_, ?_, ?_⟩
  · simpa using hWL
  · simpa using hRL
  · intro w' i' h
    exact hRB w' i' (hrm w' i' h).2
  · intro w1 w2 i' h1 h2
    exact hRD w1 w2 i' (hrm w1 i' h1).2 (hrm w2 i' h2).2
  · intro j
    by_cases hji : j = i
    · subst hji
      rw [getD_set_self _ _ _ _ (by omega)]
      unfold finishedVal
      rw [ha]
      have d1 : decide (j < cursor) = true := by
        simp only [decide_eq_true_eq]
        omega
      simp [d1, hr, hnwi]
    · rw [getD_set_ne _ _ _ _ _ (fun he => hji he.symm)]
      rw [hRE j]
      exact (finishedVal_congr items mapper raises cursor cursor _ _ j rfl
        (hnw j hji)).symm
  · intro h
    rcases List.mem_or_eq_of_mem_set h with h' | h'
    · exact hDC h'
    · cases h'
  · have hd : deadCount (workers.set w WState.idle) = deadCount workers := by
      simp only [deadCount]
      exact countP_set_congr _ _ _ _ (fun old ho => by rw [ho] at hw; cases hw; rfl)
    have hrr : raisedRetired items raises cursor (workers.set w WState.idle) =
        raisedRetired items raises cursor workers := by
      simp only [raisedRetired]
      apply countP_congr'
      intro j hj
      by_cases hji : j = i
      · subst hji
        rw [ha]
        simp [hr]
      · rw [hnw j hji]
    rw [hd, hrr]
    exact hDL

theorem runnerInv_finishRaise (items : List α) (mapper : α → Nat → β)
    (raises : α → Nat → Bool) (W cursor : Nat) (workers : List WState)
    (results : List (Option β)) (started : List Bool) (w i : Nat) (a : α)
    (hInv : RunnerInv items mapper raises W cursor workers results started)
    (hw : workers[w]? = some (WState.running i))
    (ha : items[i]? = some a) (hr : raises a i = true) :
    RunnerInv items mapper raises W cursor (workers.set w WState.dead)
      results started := by
  obtain ⟨hWL, hRL, hSL, hSI, hRB, hRD, hRE, hDC, hDL⟩ := hInv
  have hwlt : w < workers.length := lt_length_of_getElem?' _ _ _ hw
  obtain ⟨hic, hiN⟩ := hRB w i hw
  have hnw : ∀ j : Nat, j ≠ i →
      noWorkerRunning (workers.set w WState.dead) j =
      noWorkerRunning workers j := by
    intro j hj
    apply noWorkerRunning_set_congr
    intro old ho
    rw [ho] at hw
    cases hw
    have hx : (WState.running i != WState.running j) = true := by
      simp only [bne_iff_ne, ne_eq, WState.running.injEq]
      exact fun he => hj he.symm
    rw [hx]
    rfl
  have hrm : ∀ w' i' : Nat,
      (workers.set w WState.dead)[w']? = some (WState.running i') →
      w' ≠ w ∧ workers[w']? = some (WState.running i') := by
    intro w' i' h
    by_cases hww : w' = w
    · rw [hww, getElem?_set_self' _ _ _ hwlt] at h
      cases h
    · rw [getElem?_set_ne' _ _ _ _ (fun he => hww he.symm)] at h
      exact ⟨hww, h⟩
  have hnwi : noWorkerRunning (workers.set w WState.dead) i = true := by
    rw [noWorkerRunning_def, all_iff_forall_getElem?]
    intro k v hk
    rcases v with _ | i' | _ | _
    · rfl
    · obtain ⟨hkw, hk'⟩ := hrm k i' hk
      have hne' : i' ≠ i := fun he => hkw (hRD k w i (he ▸ hk') hw)
      simp only [bne_iff_ne, ne_eq, WState.running.injEq]
      exact fun he => hne' he
    · rfl
    · rfl
  have hnwsi : noWorkerRunning workers i = false := by
    rw [noWorkerRunning_def]
    apply all_false_of_getElem? _ w (WState.running i) _ hw
    simp
  refine ⟨?_, hRL, hSL, hSI, ?_, ?_, ?_, ?_, ?_⟩
  · simpa using hWL
  · intro w' i' h
    exact hRB w' i' (hrm w' i' h).2
  · intro w1 w2 i' h1 h2
    exact hRD w1 w2 i' (hrm w1 i' h1).2 (hrm w2 i' h2).2
  · intro j
    rw [hRE j]
    by_cases hji : j = i
    · subst hji
      unfold finishedVal
      rw [ha]
      simp [hr, hnwsi]
    · exact (finishedVal_congr items mapper raises cursor cursor _ _ j rfl
        (hnw j hji)).symm
  · intro h
    rcases List.mem_or_eq_of_mem_set h with h' | h'
    · exact hDC h'
    · cases h'
  · have hd : deadCount (workers.set w WState.dead) = deadCount workers + 1 := by
      simp only [deadCount]
      apply countP_set_incr _ _ _ (WState.running i) _ hw
      · rfl
      · rfl
    have hrr : raisedRetired items raises cursor (workers.set w WState.dead) =
        raisedRetired items raises cursor workers + 1 := by
      simp only [raisedRetired]
      apply countP_incr_at _ i
      · rw [List.mem_range]
        exact hiN
      · exact List.nodup_range _
      · rw [ha]
        simp [hnwsi]
      · rw [ha]
        have d1 : decide (i < cursor) = true := by
          simp only [decide_eq_true_eq]
          omega
        simp [d1, hr, hnwi]
      · intro j hj hne
        rw [hnw j hne]
    rw [hd, hrr]
    omega

theorem runnerInv_step (items : List α) (mapper : α → Nat → β)
    (raises : α → Nat → Bool) (W : Nat) (s s' : RunnerState β)
    (hInv : RunnerInv items mapper raises W s.cursor s.workers s.results
      s.started)
    (hstep : RunnerStep items mapper raises s s') :
    RunnerInv items mapper raises W s'.cursor s'.workers s'.results
      s'.started := by
  cases hstep with
  | claimOver w hw hc =>
    exact runnerInv_claimOver items mapper raises W s.cursor s.workers
      s.results s.started w hInv hw hc
  | claimTask w hw hc =>
    exact runnerInv_claimTask items mapper raises W s.cursor s.workers
      s.results s.started w hInv hw hc
  | finishOk w i a hw ha hr =>
    exact runnerInv_finishOk items mapper raises W s.cursor s.workers
      s.results s.started w i a hInv hw ha hr
  | finishRaise w i a hw ha hr =>
    exact runnerInv_finishRaise items mapper raises W s.cursor s.workers
      s.results s.started w i a hInv hw ha hr

theorem runnerInv_reachable (P : Nat) (items : List α) (mapper : α → Nat → β)
    (raises : α → Nat → Bool) (s : RunnerState β)
    (hrun : MapConcurrentRun P items mapper raises s) :
    RunnerInv items mapper raises (min P items.length) s.cursor s.workers
      s.results s.started := by
  induction hrun with
  | refl => exact runnerInv_init items mapper raises (min P items.length)
  | tail hsteps hstep ih => exact runnerInv_step _ _ _ _ _ _ ih hstep

/-! ## C2: the task runner returns index-aligned results -/

/-- C2: for every task list, parallelism `P ≥ 1` (the source clamps with
`Math.max(1, ...)`) and every scheduler interleaving — hence every
completion order — once `Promise.all` resolves, `_mapConcurrent`'s results
array has one slot per input and slot `j` holds exactly the mapper's value
for input `j`. -/
theorem c2_map_concurrent_aligned (P : Nat) (items : List α)
    (mapper : α → Nat → β) (s : RunnerState β) (hP : 1 ≤ P)
    (hrun : MapConcurrentRun P items mapper (fun _ _ => false) s)
    (hdone : RunnerDone s) :
    s.results.length = items.length ∧
    ∀ (j : Nat) (a : α), items[j]? = some a →
      s.results.getD j none = some (mapper a j) := by
  have hInv := runnerInv_reachable P items mapper (fun _ _ => false) s hrun
  obtain ⟨hWL, hRL, hSL, hSI, hRB, hRD, hRE, hDC, hDL⟩ := hInv
  refine ⟨hRL, ?_⟩
  intro j a hj
  have hjN : j < items.length := lt_length_of_getElem?' _ _ _ hj
  have hWpos : 1 ≤ min P items.length := Nat.le_min.mpr ⟨hP, by omega⟩
  have hlen : 1 ≤ s.workers.length := by omega
  have hst : s.workers[0]? = some s.workers[0] :=
    List.getElem?_eq_getElem (by omega)
  have hstdone : s.workers[0] = WState.done :=
    hdone _ (mem_of_getElem?' _ _ _ hst)
  have hcur : items.length ≤ s.cursor := by
    apply hDC
    rw [← hstdone]
    exact mem_of_getElem?' _ _ _ hst
  have hnr : noWorkerRunning s.workers j = true := by
    rw [noWorkerRunning_def, all_iff_forall_getElem?]
    intro k v hk
    rw [hdone v (mem_of_getElem?' _ _ _ hk)]
    rfl
  have d1 : decide (j < s.cursor) = true := by
    simp only [decide_eq_true_eq]
    omega
  rw [hRE j]
  simp [finishedVal, hj, hnr, d1]

/-- Witness for C2: a concrete two-worker schedule over inputs `[10, 20]`
with `mapper a i = a + i`, finishing out of order, still yields slot-aligned
results `[some 10, some 21]`. -/
theorem c2_map_concurrent_aligned_witness :
    (⟨4, [WState.done, WState.done], [some 10, some 21], [true, true]⟩ :
      RunnerState Nat).results.getD 0 none = some 10 ∧
    (⟨4, [WState.done, WState.done], [some 10, some 21], [true, true]⟩ :
      RunnerState Nat).results.getD 1 none = some 21 := by
  have st1 : RunnerStep [10, 20] (fun a i => a + i) (fun _ _ => false)
      (runnerInit Nat 2 2)
      ⟨1, [WState.running 0, WState.idle], [none, none], [true, false]⟩ :=
    RunnerStep.claimTask _ 0 (by decide) (by decide)
  have st2 : RunnerStep [10, 20] (fun a i => a + i) (fun _ _ => false)
      ⟨1, [WState.running 0, WState.idle], [none, none], [true, false]⟩
      ⟨2, [WState.running 0, WState.running 1], [none, none], [true, true]⟩ :=
    RunnerStep.claimTask _ 1 (by decide) (by decide)
  have st3 : RunnerStep [10, 20] (fun a i => a + i) (fun _ _ => false)
      ⟨2, [WState.running 0, WState.running 1], [none, none], [true, true]⟩
      ⟨2, [WState.running 0, WState.idle], [none, some 21], [true, true]⟩ :=
    RunnerStep.finishOk _ 1 1 20 (by decide) (by decide) (by decide)
  have st4 : RunnerStep [10, 20] (fun a i => a + i) (fun _ _ => false)
      ⟨2, [WState.running 0, WState.idle], [none, some 21], [true, true]⟩
      ⟨2, [WState.idle, WState.idle], [some 10, some 21], [true, true]⟩ :=
    RunnerStep.finishOk _ 0 0 10 (by decide) (by decide) (by decide)
  have st5 : RunnerStep [10, 20] (fun a i => a + i) (fun _ _ => false)
      ⟨2, [WState.idle, WState.idle], [some 10, some 21], [true, true]⟩
      ⟨3, [WState.done, WState.idle], [some 10, some 21], [true, true]⟩ :=
    RunnerStep.claimOver _ 0 (by decide) (by decide)
  have st6 : RunnerStep [10, 20] (fun a i => a + i) (fun _ _ => false)
      ⟨3, [WState.done, WState.idle], [some 10, some 21], [true, true]⟩
      ⟨4, [WState.done, WState.done], [some 10, some 21], [true, true]⟩ :=
    RunnerStep.claimOver _ 1 (by decide) (by decide)
  have hrun : MapConcurrentRun 2 [10, 20] (fun a i => a + i)
      (fun _ _ => false)
      ⟨4, [WState.done, WState.done], [some 10, some 21], [true, true]⟩ :=
    Relation.ReflTransGen.tail (Relation.ReflTransGen.tail
      (Relation.ReflTransGen.tail (Relation.ReflTransGen.tail
        (Relation.ReflTransGen.tail (Relation.ReflTransGen.tail
          Relation.ReflTransGen.refl st1) st2) st3) st4) st5) st6
  have h := c2_map_concurrent_aligned 2 [10, 20] (fun a i => a + i) _
    (by omega) hrun (by intro w hw; simp at hw; rcases hw with rfl | rfl <;> rfl)
  exact ⟨h.2 0 10 (by decide), h.2 1 20 (by decide)⟩

/-! ## C8: fault isolation in the task runner -/

/-- C8 (amended): a rejecting task terminates only its own claiming worker:
whenever strictly fewer tasks reject than there are workers
(`min(P, N)`), every schedule that has settled has started every task, and
every non-rejecting task's result is recorded at its own index.  (With
enough rejecting tasks — e.g. `P = 1` and a rejecting first task — later
tasks are never executed; see the counterexample.) -/
theorem c8_raise_isolation (P : Nat) (items : List α)
    (mapper : α → Nat → β) (raises : α → Nat → Bool) (s : RunnerState β)
    (hP : 1 ≤ P)
    (hcnt : raisingCount items raises < min P items.length)
    (hrun : MapConcurrentRun P items mapper raises s)
    (hsettled : RunnerSettled s) :
    (∀ j, j < items.length → s.started.getD j false = true) ∧
    (∀ (j : Nat) (a : α), items[j]? = some a → raises a j = false →
      s.results.getD j none = some (mapper a j)) := by
  have hInv := runnerInv_reachable P items mapper raises s hrun
  obtain ⟨hWL, hRL, hSL, hSI, hRB, hRD, hRE, hDC, hDL⟩ := hInv
  have hretired : raisedRetired items raises s.cursor s.workers ≤
      raisingCount items raises := by
    simp only [raisedRetired, raisingCount]
    apply countP_mono'
    intro j hj h
    rw [Bool.and_eq_true, Bool.and_eq_true] at h
    exact h.1.2
  have hdone : WState.done ∈ s.workers := by
    by_contra hnd
    have hall : deadCount s.workers = s.workers.length := by
      simp only [deadCount]
      rw [List.countP_eq_length]
      intro st hst
      rcases hsettled st hst with rfl | rfl
      · exact absurd hst hnd
      · rfl
    have := hDL
    omega
  have hcur : items.length ≤ s.cursor := hDC hdone
  constructor
  · intro j hj
    exact (hSI j hj).mpr (by omega)
  · intro j a hj hr
    have hjN : j < items.length := lt_length_of_getElem?' _ _ _ hj
    have hnr : noWorkerRunning s.workers j = true := by
      rw [noWorkerRunning_def, all_iff_forall_getElem?]
      intro k v hk
      rcases hsettled v (mem_of_getElem?' _ _ _ hk) with rfl | rfl <;> rfl
    have d1 : decide (j < s.cursor) = true := by
      simp only [decide_eq_true_eq]
      omega
    rw [hRE j]
    simp [finishedVal, hj, hnr, d1, hr]

/-- Witness for C8: with two workers over tasks `[0, 1]` where task 0
rejects, a full schedule still starts both tasks and records task 1's
result. -/
theorem c8_raise_isolation_witness :
    (⟨3, [WState.dead, WState.done], [none, some 1], [true, true]⟩ :
      RunnerState Nat).started.getD 0 false = true ∧
    (⟨3, [WState.dead, WState.done], [none, some 1], [true, true]⟩ :
      RunnerState Nat).started.getD 1 false = true ∧
    (⟨3, [WState.dead, WState.done], [none, some 1], [true, true]⟩ :
      RunnerState Nat).results.getD 1 none = some 1 := by
  have st1 : RunnerStep [0, 1] (fun a _ => a) (fun a _ => a == 0)
      (runnerInit Nat 2 2)
      ⟨1, [WState.running 0, WState.idle], [none, none], [true, false]⟩ :=
    RunnerStep.claimTask _ 0 (by decide) (by decide)
  have st2 : RunnerStep [0, 1] (fun a _ => a) (fun a _ => a == 0)
      ⟨1, [WState.running 0, WState.idle], [none, none], [true, false]⟩
      ⟨2, [WState.running 0, WState.running 1], [none, none], [true, true]⟩ :=
    RunnerStep.claimTask _ 1 (by decide) (by decide)
  have st3 : RunnerStep [0, 1] (fun a _ => a) (fun a _ => a == 0)
      ⟨2, [WState.running 0, WState.running 1], [none, none], [true, true]⟩
      ⟨2, [WState.dead, WState.running 1], [none, none], [true, true]⟩ :=
    RunnerStep.finishRaise _ 0 0 0 (by decide) (by decide) (by decide)
  have st4 : RunnerStep [0, 1] (fun a _ => a) (fun a _ => a == 0)
      ⟨2, [WState.dead, WState.running 1], [none, none], [true, true]⟩
      ⟨2, [WState.dead, WState.idle], [none, some 1], [true, true]⟩ :=
    RunnerStep.finishOk _ 1 1 1 (by decide) (by decide) (by decide)
  have st5 : RunnerStep [0, 1] (fun a _ => a) (fun a _ => a == 0)
      ⟨2, [WState.dead, WState.idle], [none, some 1], [true, true]⟩
      ⟨3, [WState.dead, WState.done], [none, some 1], [true, true]⟩ :=
    RunnerStep.claimOver _ 1 (by decide) (by decide)
  have hrun : MapConcurrentRun 2 [0, 1] (fun a _ => a) (fun a _ => a == 0)
      ⟨3, [WState.dead, WState.done], [none, some 1], [true, true]⟩ :=
    Relation.ReflTransGen.tail (Relation.ReflTransGen.tail
      (Relation.ReflTransGen.tail (Relation.ReflTransGen.tail
        (Relation.ReflTransGen.tail Relation.ReflTransGen.refl st1) st2)
        st3) st4) st5
  have h := c8_raise_isolation 2 [0, 1] (fun a _ => a) (fun a _ => a == 0) _
    (by omega) (by decide) hrun
    (by intro w hw; simp at hw
        rcases hw with rfl | rfl
        · exact Or.inr rfl
        · exact Or.inl rfl)
  exact ⟨h.1 0 (by decide), h.1 1 (by decide), h.2 1 1 (by decide) (by decide)⟩

/-- Counterexample to C8 as stated: with parallelism 1 over tasks `[0, 1]`
where task 0 rejects, the runner can settle — the lone worker loop is
terminated by the rejection — with task 1 never executed. -/
theorem c8_raise_isolation_counterexample :
    ∃ s : RunnerState Nat,
      MapConcurrentRun 1 [0, 1] (fun a _ => a) (fun a _ => a == 0) s ∧
      RunnerSettled s ∧ s.started.getD 1 false = false := by
  refine ⟨⟨1, [WState.dead], [none, none], [true, false]⟩, ?_,
    by intro w hw; simp at hw; subst hw; exact Or.inr rfl, rfl⟩
  have st1 : RunnerStep [0, 1] (fun a _ => a) (fun a _ => a == 0)
      (runnerInit Nat 1 2)
      ⟨1, [WState.running 0], [none, none], [true, false]⟩ :=
    RunnerStep.claimTask _ 0 (by decide) (by decide)
  have st2 : RunnerStep [0, 1] (fun a _ => a) (fun a _ => a == 0)
      ⟨1, [WState.running 0], [none, none], [true, false]⟩
      ⟨1, [WState.dead], [none, none], [true, false]⟩ :=
    RunnerStep.finishRaise _ 0 0 0 (by decide) (by decide) (by decide)
  exact Relation.ReflTransGen.tail (Relation.ReflTransGen.tail
    Relation.ReflTransGen.refl st1) st2

/-! ## C4: discovery never returns nested repository paths -/

theorem isPrefixOf_append_cancel (pre x y : List String) :
    (pre ++ x).isPrefixOf (pre ++ y) = x.isPrefixOf y := by
  induction pre with
  | nil => rfl
  | cons a as ih => simp [List.isPrefixOf, ih]

theorem head_eq_of_isPrefixOf_cons (n₁ n₂ : String) (s₁ s₂ : List String)
    (h : (n₁ :: s₁).isPrefixOf (n₂ :: s₂) = true) : n₁ = n₂ := by
  simp only [List.isPrefixOf, Bool.and_eq_true, beq_iff_eq] at h
  exact h.1

theorem walkDir_extends (d : Nat) :
    ∀ (fs : FS) (excl : List String) (follow : Bool) (pre p : List String),
      p ∈ walkDir fs excl follow d pre → ∃ suf, p = pre ++ suf := by
  induction d with
  | zero =>
    intro fs excl follow pre p hp
    rw [walkDir] at hp
    cases hlook : fsLookup fs pre with
    | none => rw [hlook] at hp; dsimp only at hp; cases hp
    | some node =>
      rw [hlook] at hp
      dsimp only at hp
      by_cases hrepo : node.isRepo = true
      · rw [if_pos hrepo, List.mem_singleton] at hp
        exact ⟨[], by rw [hp]; simp⟩
      · rw [if_neg hrepo] at hp
        cases hp
  | succ d ih =>
    intro fs excl follow pre p hp
    rw [walkDir] at hp
    cases hlook : fsLookup fs pre with
    | none => rw [hlook] at hp; dsimp only at hp; cases hp
    | some node =>
      rw [hlook] at hp
      dsimp only at hp
      by_cases hrepo : node.isRepo = true
      · rw [if_pos hrepo, List.mem_singleton] at hp
        exact ⟨[], by rw [hp]; simp⟩
      · rw [if_neg hrepo] at hp
        rw [List.mem_flatMap] at hp
        obtain ⟨c, -, hc⟩ := hp
        obtain ⟨suf, hsuf⟩ := ih fs excl follow (pre ++ [c.1]) p hc
        exact ⟨c.1 :: suf, by simpa using hsuf⟩

theorem walkDir_no_nest (d : Nat) :
    ∀ (fs : FS) (excl : List String) (follow : Bool) (pre p q : List String),
      p ∈ walkDir fs excl follow d pre → q ∈ walkDir fs excl follow d pre →
      p.isPrefixOf q = true → p = q := by
  induction d with
  | zero =>
    intro fs excl follow pre p q hp hq hpre
    rw [walkDir] at hp hq
    cases hlook : fsLookup fs pre with
    | none => rw [hlook] at hp; dsimp only at hp; cases hp
    | some node =>
      rw [hlook] at hp hq
      dsimp only at hp hq
      by_cases hrepo : node.isRepo = true
      · rw [if_pos hrepo, List.mem_singleton] at hp hq
        rw [hp, hq]
      · rw [if_neg hrepo] at hp
        cases hp
  | succ d ih =>
    intro fs excl follow pre p q hp hq hpre
    rw [walkDir] at hp hq
    cases hlook : fsLookup fs pre with
    | none => rw [hlook] at hp; dsimp only at hp; cases hp
    | some node =>
      rw [hlook] at hp hq
      dsimp only at hp hq
      by_cases hrepo : node.isRepo = true
      · rw [if_pos hrepo, List.mem_singleton] at hp hq
        rw [hp, hq]
      · rw [if_neg hrepo] at hp hq
        rw [List.mem_flatMap] at hp hq
        obtain ⟨c₁, -, hc₁⟩ := hp
        obtain ⟨c₂, -, hc₂⟩ := hq
        by_cases hn : c₁.1 = c₂.1
        · rw [hn] at hc₁
          exact ih fs excl follow (pre ++ [c₂.1]) p q hc₁ hc₂ hpre
        · obtain ⟨s₁, hs₁⟩ := walkDir_extends d fs excl follow _ p hc₁
          obtain ⟨s₂, hs₂⟩ := walkDir_extends d fs excl follow _ q hc₂
          rw [hs₁, hs₂] at hpre
          rw [show pre ++ [c₁.1] ++ s₁ = pre ++ (c₁.1 :: s₁) from by simp,
            show pre ++ [c₂.1] ++ s₂ = pre ++ (c₂.1 :: s₂) from by simp,
            isPrefixOf_append_cancel] at hpre
          exact absurd (head_eq_of_isPrefixOf_cons _ _ _ _ hpre) hn

/-- C4: no repository path returned by the Discovery Scanner
(`scanForRepositories`) is a subdirectory of another returned path: once a
directory is identified as a repository root, the walk records it and does
not descend into it. -/
theorem c4_no_nested_repos (fs : FS) (root : List String) (maxDepth : Nat)
    (exclude : List String) (follow : Bool) (p q : List String)
    (hp : p ∈ scanForRepositoriesPaths fs root maxDepth exclude follow)
    (hq : q ∈ scanForRepositoriesPaths fs root maxDepth exclude follow)
    (hne : p ≠ q) : q.isPrefixOf p = false := by
  rcases h : q.isPrefixOf p with _ | _
  · rfl
  · exact absurd (walkDir_no_nest maxDepth fs exclude follow root q p hq hp h).symm
      hne

/-- Witness for C4: in the spec's scenario filesystem, the scan returns the
repositories `a` and `b/c`, and `a` is not an ancestor of `b/c`. -/
theorem c4_no_nested_repos_witness :
    (["a"] : List String).isPrefixOf ["b", "c"] = false :=
  c4_no_nested_repos fsC [] 4 defaultExclude false ["b", "c"] ["a"]
    (by decide) (by decide) (by decide)
